import Mathlib

/-!
# Verification of the LZWTool test harness and its specified codec

The repository holds four Python harness scripts (`comprehensive_test.py`,
`test_lru.py`, `test_all_policies.py`, `verify_policies_differ.py`) that
drive an external adaptive-LZW compressor (`LZWTool`).  This file embeds:

* the pure computations of the harness scripts (bit-width selection,
  compression-ratio arithmetic, temporary-file bookkeeping, random-sequence
  generation order, the LRU/LFU divergence check), translated directly from
  the Python source; and
* the codec itself, which is not part of the snapshot, modelled from the
  specification (alphabet table, variable-width bit channel, codebook with
  the four eviction policies, encoder, decoder), together with a proof of
  the round-trip property `expand (compress s) = s`.
-/

namespace LZWHarness

/-! ## `pick_bitwidths` (comprehensive_test.py, lines 138-142)

Python source:
`minW = max(2, (alphabet_size - 1).bit_length()); maxW = minW + 2`. -/

/-- Python's `int.bit_length` on a nonnegative integer: the number of binary
digits, with `bit_length 0 = 0`.  Fuel-bounded structural recursion (the
value halves each step, so `m` units of fuel always suffice). -/
def bitLengthGo : Nat → Nat → Nat
  | 0, _ => 0
  | fuel + 1, m => if m = 0 then 0 else bitLengthGo fuel (m / 2) + 1

def bitLength (m : Nat) : Nat := bitLengthGo m m

theorem bitLengthGo_lt (fuel : Nat) :
    ∀ m, m ≤ fuel → m < 2 ^ bitLengthGo fuel m := by
  induction fuel with
  | zero =>
    intro m h
    simp only [bitLengthGo, pow_zero]
    omega
  | succ fuel ih =>
    intro m hm
    by_cases h0 : m = 0
    · subst h0
      simp [bitLengthGo]
    · have h2 : m / 2 ≤ fuel := by omega
      have := ih (m / 2) h2
      simp only [bitLengthGo, if_neg h0]
      rw [pow_succ]
      omega

theorem bitLength_lt (m : Nat) : m < 2 ^ bitLength m :=
  bitLengthGo_lt m m le_rfl

def pick_bitwidths (alphabet_size : Nat) : Nat × Nat :=
  (max 2 (bitLength (alphabet_size - 1)),
   max 2 (bitLength (alphabet_size - 1)) + 2)

/-! ## Compression-ratio arithmetic (the three harness functions)

Python division raises `ZeroDivisionError` on a zero denominator; we model
it as an `Option`-valued operation so that totality is a real statement. -/

/-- Division as Python performs it: `none` models `ZeroDivisionError`. -/
def pyDiv (a b : ℚ) : Option ℚ := if b = 0 then none else some (a / b)

/-- comprehensive_test.py line 188:
`ratio = compressed_size / max(original_size, 1) if original_size > 0 else 0`. -/
def ratioComprehensive (compressed_size original_size : Nat) : Option ℚ :=
  if 0 < original_size then pyDiv compressed_size (max original_size 1) else some 0

/-- test_lru.py line 116:
`ratio = (compressed_size / original_size * 100) if original_size > 0 else 0`. -/
def ratioTestLru (compressed_size original_size : Nat) : Option ℚ :=
  if 0 < original_size then (pyDiv compressed_size original_size).map (· * 100)
  else some 0

/-- test_all_policies.py line 237:
`ratio = (compressed_size / len(input_data) * 100) if len(input_data) > 0 else 0`. -/
def ratioAllPolicies (compressed_size input_len : Nat) : Option ℚ :=
  if 0 < input_len then (pyDiv compressed_size input_len).map (· * 100)
  else some 0

/-! ## Temporary-file bookkeeping (frame effect of the three test drivers)

The file system is modelled as the list of paths that currently exist.
`os.remove` is only called behind an `os.path.exists` guard, so it is a
filter; `open(path, "w")`/`tempfile.NamedTemporaryFile` create the path. -/

abbrev FS := List String

def FS.create (fs : FS) (n : String) : FS := n :: fs

/-- `if os.path.exists(f): os.remove(f)`. -/
def FS.removeIfPresent (fs : FS) (n : String) : FS :=
  List.filter (fun m => m ≠ n) fs

/-- The shared `finally:` block: remove each of the three files if present. -/
def cleanupFinally (inF cF dF : String) (fs : FS) : FS :=
  ((fs.removeIfPresent inF).removeIfPresent cF).removeIfPresent dF

/-- File-system trace of `compress_expand_test` (comprehensive_test.py,
lines 144-199).  The input file is created by `tempfile`, the compressed and
decompressed files by `open(..., "wb")`/`open(..., "w")` before the
corresponding subprocess runs; every return path goes through the
`finally:` cleanup.  `compressOk`/`expandOk` are the subprocess exit
statuses, `outMatches` the string comparison. -/
def compressExpandTestFS (inF cF dF : String)
    (compressOk expandOk outMatches : Bool) (fs : FS) : FS :=
  let fs := fs.create inF
  let fs := fs.create cF
  if compressOk then
    let fs := fs.create dF
    if expandOk then
      -- comparison happens, then cleanup, whatever `outMatches` is
      let _ := outMatches
      cleanupFinally inF cF dF fs
    else cleanupFinally inF cF dF fs
  else cleanupFinally inF cF dF fs

/-- File-system trace of `run_test` (test_lru.py, lines 48-128): the input
file is written first, then compilation may fail, then the compress and
expand subprocesses run; all return paths go through the `finally:`. -/
def runTestFS (name : String) (compileOk compressOk expandOk outMatches : Bool)
    (fs : FS) : FS :=
  let inF := "test_input_" ++ name ++ ".txt"
  let cF := "test_compressed_" ++ name ++ ".bin"
  let dF := "test_decompressed_" ++ name ++ ".txt"
  let fs := fs.create inF
  if compileOk then
    let fs := fs.create cF
    if compressOk then
      let fs := fs.create dF
      if expandOk then
        let _ := outMatches
        cleanupFinally inF cF dF fs
      else cleanupFinally inF cF dF fs
    else cleanupFinally inF cF dF fs
  else cleanupFinally inF cF dF fs

/-- File-system trace of `test_policy` (test_all_policies.py, lines 184-248),
same shape as `run_test`. -/
def testPolicyFS (policy : String) (compileOk compressOk expandOk outMatches : Bool)
    (fs : FS) : FS :=
  let inF := "test_" ++ policy ++ "_input.txt"
  let cF := "test_" ++ policy ++ "_compressed.bin"
  let dF := "test_" ++ policy ++ "_decompressed.txt"
  let fs := fs.create inF
  if compileOk then
    let fs := fs.create cF
    if compressOk then
      let fs := fs.create dF
      if expandOk then
        let _ := outMatches
        cleanupFinally inF cF dF fs
      else cleanupFinally inF cF dF fs
    else cleanupFinally inF cF dF fs
  else cleanupFinally inF cF dF fs

/-! ## Random-sequence generation order

Modelled from the spec: Python's `random` module is an external collaborator
(the scripts only call `random.seed` and `random.choice`).  We model the
generator state as a stream of naturals; `random.seed n` discards the
ambient state and installs a state that is a function of `n` alone, which is
all the determinism argument uses; `random.choice` indexes the list with the
next stream value. -/

abbrev Rng := Nat → Nat

/-- `random.seed n`: the resulting state depends only on `n`. -/
def randomSeed (n : Nat) : Rng := fun i => n + i

/-- `random.choice(chars)` fed by stream position `i` of state `g`. -/
def randomChoice (chars : List Char) (g : Rng) (i : Nat) : Char :=
  chars.getD (g i % chars.length) '?'

/-- `"".join(random.choice(chars) for _ in range(len))`, consuming stream
positions `off, off+1, ...`. -/
def randString (chars : List Char) (g : Rng) (off len : Nat) : List Char :=
  (List.range len).map (fun i => randomChoice chars g (off + i))

/-- The four random sequences of `generate_test_sequences`
(comprehensive_test.py lines 118-121), as produced in a run of `main`:
`random.seed(42)` (line 437) runs before any generation, so the incoming
generator state `g0` is discarded. -/
def comprehensiveRandomSeqs (chars : List Char) (g0 : Rng) : List (List Char) :=
  let _ := g0
  let g := randomSeed 42
  [randString chars g 0 20, randString chars g 20 100,
   randString chars g 120 500, randString chars g 620 10000]

/-- The random data of verify_policies_differ.py (line 353), generated after
the module-level `random.seed(42)` (line 335): the incoming state is
discarded. -/
def verifyPoliciesRandomSeq (chars : List Char) (g0 : Rng) (length : Nat) :
    List Char :=
  let _ := g0
  let g := randomSeed 42
  randString chars g 0 length

/-- The random sequences of `generate_test_sequences` in test_lru.py
(lines 22-38): no `random.seed` call anywhere in the script, so they are
functions of the ambient generator state. -/
def testLruRandomSeqs (g0 : Rng) : List (List Char) :=
  let chars := ['a', 'b']
  [randString chars g0 0 20, randString chars g0 20 100,
   randString chars g0 120 500, randString chars g0 620 1000,
   randString chars g0 1620 2000]

/-! ## The LRU/LFU divergence check (comprehensive_test.py, lines 239-251)

`if ratios['lru'] and ratios['lfu']:` is a Python truthiness test: it is
false when a ratio is `None` *or* equal to `0`.  On differing ratios the
check logs `[PASS]`; on coinciding ratios it logs `[WARN]` ("might be
coincidence"); in either case `test_alphabet_suite` falls through to
`return True` (line 251). -/

inductive DivergenceOutcome
  | passed
  | warned
  | skipped
deriving DecidableEq, Repr

def pyTruthy : Option ℚ → Bool
  | some r => r ≠ 0
  | none => false

def lruLfuCheck (lru lfu : Option ℚ) : DivergenceOutcome :=
  if pyTruthy lru && pyTruthy lfu then
    if lru = lfu then .warned else .passed
  else .skipped

/-- The value `test_alphabet_suite` returns after the divergence check,
given that every individual round-trip test passed: the check's outcome
does not influence it. -/
def suiteReturnAfterCheck (outcome : DivergenceOutcome) : Bool :=
  let _ := outcome
  true

end LZWHarness

namespace LZWCodec

/-!
## The codec, modelled from the spec

Modelled from the spec: the engine (`LZWTool.java` with `TSTmod`,
`BinaryStdIn`, `BinaryStdOut`) is not part of the snapshot; what follows is
a shallow embedding of spec sections 3, 4 and 6: an `AlphabetTable` mapping
symbols to dense codes `0..R-1`; reserved marker codes `EOF = R` and (for
the `reset` policy) `RESET = R+1`; a `Codebook` whose base entries are
permanent and whose learned entries carry `lastUsed`/`useCount` eviction
metadata driven by a tick clock; the four eviction policies; the
variable-width MSB-first bit channel; and the encoder and decoder state
machines, which perform the identical sequence of codebook updates so that
the two sides stay in lockstep (the single invariant spec section 3 calls
out).  Where the spec under-determines a detail (the tie-break for LRU, the
metadata of a freshly inserted entry, the instant at which the decoder's
read width accounts for its one-step-delayed insert) we fix the
deterministic choice the spec's lockstep requirement forces, and note it at
the definition.
-/

/-- Ceiling base-2 logarithm: the least `w` with `m ≤ 2 ^ w`.  Fuel-bounded
structural recursion so that the kernel can evaluate it. -/
def clog2Go : Nat → Nat → Nat
  | 0, _ => 0
  | fuel + 1, m => if m ≤ 1 then 0 else clog2Go fuel ((m + 1) / 2) + 1

def clog2 (m : Nat) : Nat := clog2Go m m

theorem clog2Go_le (fuel : Nat) : ∀ m, m ≤ fuel → m ≤ 2 ^ clog2Go fuel m := by
  induction fuel with
  | zero =>
    intro m h
    simp only [clog2Go, pow_zero]
    omega
  | succ fuel ih =>
    intro m hm
    by_cases h1 : m ≤ 1
    · simp only [clog2Go, if_pos h1, pow_zero]
      omega
    · have h2 : (m + 1) / 2 ≤ fuel := by omega
      have := ih _ h2
      simp only [clog2Go, if_neg h1]
      rw [pow_succ]
      omega

theorem le_pow_clog2 (m : Nat) : m ≤ 2 ^ clog2 m :=
  clog2Go_le m m le_rfl

inductive Policy
  | freeze
  | reset
  | lru
  | lfu
deriving DecidableEq, Repr

/-- The compression-side configuration (spec section 6): alphabet order
defines the code assignment; `minW`, `maxW` bound the codeword width. -/
structure Config where
  alphabet : List Char
  minW : Nat
  maxW : Nat
  policy : Policy
deriving DecidableEq, Repr

namespace Config

/-- Number of base symbols. -/
def R (cfg : Config) : Nat := cfg.alphabet.length

/-- The EOF marker code, reserved just past the symbol range. -/
def eofCode (cfg : Config) : Nat := cfg.R

/-- The RESET marker code (meaningful only under the `reset` policy). -/
def resetCode (cfg : Config) : Nat := cfg.R + 1

/-- Number of reserved marker codes: EOF always, RESET only for `reset`. -/
def numMarkers (cfg : Config) : Nat := if cfg.policy = .reset then 2 else 1

/-- First code available for learned sequences. -/
def firstLearned (cfg : Config) : Nat := cfg.R + cfg.numMarkers

/-- Total capacity: `2 ^ maxW` codes, base and markers included. -/
def capacity (cfg : Config) : Nat := 2 ^ cfg.maxW

/-- Room for learned entries. -/
def maxLearned (cfg : Config) : Nat := cfg.capacity - cfg.firstLearned

/-- Codeword width in force when `d` data codewords have been emitted (and,
symmetrically, read) since the last reset: wide enough for the
`firstLearned + d` codes that are live at that point, clamped to
`[minW, maxW]`.  Both state machines derive the width from the shared
codeword count, which keeps the channel in lockstep (spec sections 4.2/4.3:
width grows with the entry count, never beyond `maxW`, and the growth must
be applied to the very next codeword on both sides). -/
def widthFor (cfg : Config) (d : Nat) : Nat :=
  min cfg.maxW (max cfg.minW (clog2 (cfg.firstLearned + d)))

end Config

/-- A learned dictionary entry: a code, the symbol sequence it denotes, and
the eviction metadata (spec section 3). -/
structure Entry where
  code : Nat
  seq : List Nat
  lastUsed : Nat
  useCount : Nat
deriving DecidableEq, Repr

/-- The codebook.  Base entries (`code i ↔ [i]` for `i < R`) are permanent
and implicit; `learned` holds the learned entries in insertion order;
`tick` is the monotonic logical clock (spec section 3). -/
structure Book where
  learned : List Entry
  tick : Nat
deriving DecidableEq, Repr

namespace Book

def init : Book := ⟨[], 0⟩

/-- `codeOf(sequence)`: base entries resolve single symbols; longer
sequences are searched among the learned entries. -/
def codeOf? (cfg : Config) (b : Book) : List Nat → Option Nat
  | [i] => if i < cfg.R then some i else none
  | s => (b.learned.find? (fun e => e.seq = s)).map (·.code)

/-- `symbolOf(code)`: base codes resolve to their symbol; learned codes are
searched among the learned entries. -/
def seqOf? (cfg : Config) (b : Book) (c : Nat) : Option (List Nat) :=
  if c < cfg.R then some [c]
  else (b.learned.find? (fun e => e.code = c)).map (·.seq)

/-- `touch(code)` (spec section 4.3): one tick per code processed; the
touched entry's `lastUsed` becomes the new tick and its `useCount` grows.
Base codes only advance the clock (their metadata never matters: base
entries are never eviction candidates). -/
def touch (b : Book) (c : Nat) : Book :=
  { learned := b.learned.map (fun e =>
      if e.code = c then { e with lastUsed := b.tick + 1, useCount := e.useCount + 1 }
      else e),
    tick := b.tick + 1 }

/-- Of two entries, the better eviction victim under the key `key`:
strictly smaller key wins, ties go to the lower code (spec section 4.4
fixes this for LFU; for LRU the spec leaves the tie-break open and the
lockstep requirement only needs it to be deterministic, so the same rule is
used). -/
def betterVictim (key : Entry → Nat) (e1 e2 : Entry) : Entry :=
  if key e2 < key e1 ∨ (key e2 = key e1 ∧ e2.code < e1.code) then e2 else e1

/-- The eviction victim among the learned entries, if any. -/
def victim? (key : Entry → Nat) : List Entry → Option Entry
  | [] => none
  | e :: es => some (es.foldl (betterVictim key) e)

/-- The victim's code under the active policy (`none` for freeze/reset,
which never evict). -/
def victimCode? (cfg : Config) (b : Book) : Option Nat :=
  match cfg.policy with
  | .lru => (victim? (·.lastUsed) b.learned).map (·.code)
  | .lfu => (victim? (·.useCount) b.learned).map (·.code)
  | _ => none

/-- The code the next insert will occupy, if an insert is possible: the
next dense code while below capacity, otherwise the policy's victim's code
(eviction reuses the victim's code, spec section 4.4). -/
def nextSlot? (cfg : Config) (b : Book) : Option Nat :=
  if b.learned.length < cfg.maxLearned then
    some (cfg.firstLearned + b.learned.length)
  else victimCode? cfg b

/-- `reset`: all non-base entries removed (spec section 4.4).  The clock is
kept; both sides clear at the same stream position, so any consistent
choice preserves lockstep. -/
def clear (b : Book) : Book := { b with learned := [] }

/-- What an insert did. -/
inductive InsEvent
  | inserted
  | frozen
  | didReset
deriving DecidableEq, Repr

/-- `insert(sequence)` (spec sections 4.3/4.4).  Below capacity the entry
takes the next dense code; at capacity, `freeze` ignores the insert,
`reset` clears the table (the encoder then emits the RESET marker), and
`lru`/`lfu` evict their victim and reuse its code.  A fresh entry starts
with `lastUsed` equal to the current clock and a zero `useCount` (the spec
leaves the initial metadata open; lockstep only needs both sides to agree,
and both call this function). -/
def insertSeq (cfg : Config) (b : Book) (s : List Nat) : Book × InsEvent :=
  match nextSlot? cfg b with
  | some v =>
      ({ b with
          learned := (b.learned.filter (fun e => e.code ≠ v)) ++
            [{ code := v, seq := s, lastUsed := b.tick, useCount := 0 }] },
        .inserted)
  | none =>
      match cfg.policy with
      | .reset => (clear b, .didReset)
      | _ => (b, .frozen)

end Book

/-! ## The bit channel (spec section 4.2) -/

/-- Append a value MSB-first using exactly `w` bits. -/
def writeBits : Nat → Nat → List Bool
  | 0, _ => []
  | w + 1, v => v.testBit w :: writeBits w v

/-- Value of an MSB-first bit string. -/
def bitsToNat (bs : List Bool) : Nat :=
  bs.foldl (fun acc b => 2 * acc + (if b then 1 else 0)) 0

/-- Consume exactly `w` bits; `none` models `EndOfStream` (fewer than `w`
bits remain). -/
def readTok (w : Nat) (bs : List Bool) : Option (Nat × List Bool) :=
  if w ≤ bs.length then some (bitsToNat (bs.take w), bs.drop w) else none

/-- Pad to a byte boundary with zero bits (writer close, spec 4.2). -/
def pad8 (bs : List Bool) : List Bool :=
  bs ++ List.replicate ((8 - bs.length % 8) % 8) false

/-! ## Encoder (spec section 4.5) -/

/-- The longest known extension of the pending buffer `acc` (already known
to the codebook) into `rest`, by incremental single-symbol extension:
returns the matched buffer and the unconsumed remainder. -/
def longestMatch (cfg : Config) (b : Book) (acc : List Nat) :
    List Nat → List Nat × List Nat
  | [] => (acc, [])
  | x :: xs =>
      if (Book.codeOf? cfg b (acc ++ [x])).isSome then
        longestMatch cfg b (acc ++ [x]) xs
      else (acc, x :: xs)

/-- One codeword destined for the stream: value and width. -/
abbrev Tok := Nat × Nat

/-- The encoder loop over validated symbol codes.  State: codebook `b`,
count `d` of data codewords emitted since the last reset (drives the
width), remaining input.  Per step: find the longest known match, emit its
code, `touch` it, and insert the match extended by the next unmatched
symbol — under `reset` at capacity this instead clears the table and emits
the RESET marker.  At end of input the last match is emitted followed by
the EOF marker.  `fuel` dominates the recursion; `none` is unreachable for
`fuel > length rest` (proved below). -/
def encodeLoop (cfg : Config) : Nat → Book → Nat → List Nat → Option (List Tok)
  | 0, _, _, _ => none
  | fuel + 1, b, d, rest =>
    match rest with
    | [] => some [(cfg.eofCode, cfg.widthFor d)]
    | x :: xs =>
      match longestMatch cfg b [x] xs with
      | (m, rest') =>
        match Book.codeOf? cfg b m with
        | none => none
        | some c =>
          let tok : Tok := (c, cfg.widthFor d)
          let b1 := b.touch c
          match rest' with
          | [] => (encodeLoop cfg fuel b1 (d + 1) []).map (tok :: ·)
          | y :: _ =>
            match Book.insertSeq cfg b1 (m ++ [y]) with
            | (b2, .didReset) =>
                (encodeLoop cfg fuel b2 0 rest').map
                  (fun ts => tok :: (cfg.resetCode, cfg.widthFor (d + 1)) :: ts)
            | (b2, _) => (encodeLoop cfg fuel b2 (d + 1) rest').map (tok :: ·)

/-- Serialize the codewords. -/
def payloadBits (toks : List Tok) : List Bool :=
  (toks.map (fun t => writeBits t.2 t.1)).flatten

/-- The compressed stream: self-describing header (alphabet identity,
`minW`, `maxW`, policy tag — kept structured, the spec does not fix its
byte layout) followed by the codeword payload padded to a byte boundary. -/
structure Stream where
  alphabet : List Char
  minW : Nat
  maxW : Nat
  policy : Policy
  bits : List Bool
deriving DecidableEq, Repr

inductive CompErr
  | symbolNotInAlphabet (c : Char)
  | internal
deriving DecidableEq, Repr

/-- `codeOf(symbol)` of the `AlphabetTable` (spec section 4.1): position of
the first occurrence in file order. -/
def codeOfChar (alpha : List Char) (c : Char) : Option Nat :=
  match alpha with
  | [] => none
  | a :: as => if a = c then some 0 else (codeOfChar as c).map (· + 1)

/-- Validate and encode the raw symbols left to right; the first symbol
outside the alphabet aborts the run (`SymbolNotInAlphabet`, fail-fast,
spec sections 4.1/7). -/
def toCodes (alpha : List Char) : List Char → Except CompErr (List Nat)
  | [] => .ok []
  | c :: cs =>
    match codeOfChar alpha c with
    | some i => (toCodes alpha cs).map (i :: ·)
    | none => .error (.symbolNotInAlphabet c)

/-- `compress`: validate the symbols, run the encoder, serialize.  An
error produces no stream at all (abort outright, spec section 6). -/
def lzwCompress (cfg : Config) (s : List Char) : Except CompErr Stream :=
  match toCodes cfg.alphabet s with
  | .error e => .error e
  | .ok codes =>
    match encodeLoop cfg (codes.length + 1) Book.init 0 codes with
    | some toks =>
        .ok ⟨cfg.alphabet, cfg.minW, cfg.maxW, cfg.policy, pad8 (payloadBits toks)⟩
    | none => .error .internal

/-! ## Decoder (spec section 4.6) -/

inductive ExpErr
  | corruptStream
  | unexpectedEnd
deriving DecidableEq, Repr

/-- The decoder loop.  State: codebook `b`, previously resolved sequence
`prev`, count `d` of data codewords read since the last reset (drives the
read width exactly as on the encoder side), remaining bits.  Per code: EOF
stops; RESET (under the `reset` policy) clears the table; otherwise the
code resolves against the table — or, when it equals the code the pending
insert is about to occupy, to `prev + firstSymbol(prev)` (the
self-referential case, spec section 4.6) — then the pending entry
`prev + firstSymbol(current)` is inserted and the code is `touch`ed,
mirroring the encoder's update order one step behind.  `fuel` dominates
the recursion (each step consumes at least one bit). -/
def decodeLoop (cfg : Config) :
    Nat → Book → Option (List Nat) → Nat → List Bool → Except ExpErr (List Nat)
  | 0, _, _, _, _ => .error .corruptStream
  | fuel + 1, b, prev, d, bits =>
    match readTok (cfg.widthFor d) bits with
    | none => .error .unexpectedEnd
    | some (c, bits') =>
      if c = cfg.eofCode then .ok []
      else if cfg.policy = .reset ∧ c = cfg.resetCode then
        decodeLoop cfg fuel (Book.clear b) none 0 bits'
      else
        let cur? : Option (List Nat) :=
          match prev with
          | some p =>
              if Book.nextSlot? cfg b = some c then some (p ++ [p.headD 0])
              else Book.seqOf? cfg b c
          | none => Book.seqOf? cfg b c
        match cur? with
        | none => .error .corruptStream
        | some cur =>
          let b1 :=
            match prev with
            | some p => (Book.insertSeq cfg b (p ++ [cur.headD 0])).1
            | none => b
          let b2 := b1.touch c
          match decodeLoop cfg fuel b2 (some cur) (d + 1) bits' with
          | .ok out => .ok (cur ++ out)
          | .error e => .error e

/-- `expand`: all parameters come from the stream header (spec section 6);
decoded codes map back to symbols through the embedded alphabet. -/
def lzwExpand (st : Stream) : Except ExpErr (List Char) :=
  let cfg : Config := ⟨st.alphabet, st.minW, st.maxW, st.policy⟩
  match decodeLoop cfg (st.bits.length + 1) Book.init none 0 st.bits with
  | .ok codes => .ok (codes.map (fun i => st.alphabet.getD i ' '))
  | .error e => .error e

/-! ## Bit-channel lemmas -/

theorem writeBits_length (w v : Nat) : (writeBits w v).length = w := by
  induction w generalizing v with
  | zero => rfl
  | succ w ih => simp [writeBits, ih]

theorem ite_testBit_eq (v w : Nat) :
    (if v.testBit w then 1 else 0) = v / 2 ^ w % 2 := by
  rw [Nat.testBit_to_div_mod]
  rcases Nat.mod_two_eq_zero_or_one (v / 2 ^ w) with h | h <;> simp [h]

theorem bitsToNat_writeBits_aux (w v acc : Nat) :
    (writeBits w v).foldl (fun a b => 2 * a + (if b then 1 else 0)) acc
      = acc * 2 ^ w + v % 2 ^ w := by
  induction w generalizing acc with
  | zero => simp [writeBits, Nat.mod_one]
  | succ w ih =>
    simp only [writeBits, List.foldl_cons]
    rw [ih, ite_testBit_eq, Nat.mod_pow_succ, Nat.pow_succ]
    ring

theorem bitsToNat_writeBits {w v : Nat} (h : v < 2 ^ w) :
    bitsToNat (writeBits w v) = v := by
  have := bitsToNat_writeBits_aux w v 0
  simpa [bitsToNat, Nat.mod_eq_of_lt h] using this

theorem readTok_writeBits {w v : Nat} (h : v < 2 ^ w) (r : List Bool) :
    readTok w (writeBits w v ++ r) = some (v, r) := by
  have key : ∀ l : List Bool, l.length = w → bitsToNat l = v →
      readTok w (l ++ r) = some (v, r) := by
    intro l hlen hval
    unfold readTok
    rw [if_pos (by simp [hlen]), ← hlen, List.take_left, List.drop_left, hval]
  exact key _ (writeBits_length w v) (bitsToNat_writeBits h)

theorem payloadBits_nil : payloadBits [] = [] := rfl

theorem payloadBits_cons (v w : Nat) (ts : List Tok) :
    payloadBits ((v, w) :: ts) = writeBits w v ++ payloadBits ts := by
  simp [payloadBits]

/-! ## Alphabet-table lemmas -/

theorem codeOfChar_lt {alpha : List Char} {c : Char} {i : Nat}
    (h : codeOfChar alpha c = some i) : i < alpha.length := by
  induction alpha generalizing i with
  | nil => simp [codeOfChar] at h
  | cons a as ih =>
    by_cases hac : a = c
    · simp [codeOfChar, hac] at h
      simp only [List.length_cons]
      omega
    · simp only [codeOfChar, if_neg hac, Option.map_eq_some'] at h
      obtain ⟨j, hj, rfl⟩ := h
      have := ih hj
      simp only [List.length_cons]
      omega

theorem codeOfChar_getD {alpha : List Char} {c : Char} {i : Nat}
    (h : codeOfChar alpha c = some i) : alpha.getD i ' ' = c := by
  induction alpha generalizing i with
  | nil => simp [codeOfChar] at h
  | cons a as ih =>
    by_cases hac : a = c
    · simp [codeOfChar, hac] at h
      simp [← h, hac]
    · simp only [codeOfChar, if_neg hac, Option.map_eq_some'] at h
      obtain ⟨j, hj, rfl⟩ := h
      simpa using ih hj

theorem codeOfChar_isSome {alpha : List Char} {c : Char} (h : c ∈ alpha) :
    (codeOfChar alpha c).isSome := by
  induction alpha with
  | nil => simp at h
  | cons a as ih =>
    by_cases hac : a = c
    · simp [codeOfChar, hac]
    · rcases List.mem_cons.mp h with h' | h'
      · exact absurd h'.symm hac
      · simp only [codeOfChar, if_neg hac]
        have := ih h'
        rcases Option.isSome_iff_exists.mp this with ⟨j, hj⟩
        simp [hj]

theorem toCodes_ok {alpha : List Char} {s : List Char} (h : ∀ c ∈ s, c ∈ alpha) :
    ∃ codes, toCodes alpha s = .ok codes ∧
      codes.map (fun i => alpha.getD i ' ') = s ∧ ∀ i ∈ codes, i < alpha.length := by
  induction s with
  | nil => exact ⟨[], rfl, rfl, by simp⟩
  | cons c cs ih =>
    obtain ⟨codes, hok, hmap, hlt⟩ := ih (fun x hx => h x (List.mem_cons_of_mem _ hx))
    have hc := codeOfChar_isSome (h c (List.mem_cons_self _ _))
    rcases Option.isSome_iff_exists.mp hc with ⟨i, hi⟩
    refine ⟨i :: codes, ?_, ?_, ?_⟩
    · simp [toCodes, hi, hok, Except.map]
    · rw [List.map_cons, hmap, codeOfChar_getD hi]
    · intro j hj
      rcases List.mem_cons.mp hj with rfl | hj'
      · exact codeOfChar_lt hi
      · exact hlt j hj'

/-! ## Codebook invariant -/

/-- Structural invariant of a codebook: learned codes are distinct, sit in
the learned range `[firstLearned, firstLearned + count)`, and the count
respects capacity. -/
structure BookWF (cfg : Config) (b : Book) : Prop where
  nodup : (b.learned.map Entry.code).Nodup
  lb : ∀ e ∈ b.learned, cfg.firstLearned ≤ e.code
  ub : ∀ e ∈ b.learned, e.code < cfg.firstLearned + b.learned.length
  lenle : b.learned.length ≤ cfg.maxLearned

theorem Config.R_lt_firstLearned (cfg : Config) : cfg.R < cfg.firstLearned := by
  unfold Config.firstLearned Config.numMarkers
  split <;> omega

theorem Config.resetCode_lt_firstLearned (cfg : Config) (h : cfg.policy = .reset) :
    cfg.resetCode < cfg.firstLearned := by
  unfold Config.resetCode Config.firstLearned Config.numMarkers
  rw [if_pos h]
  omega

theorem bookWF_init (cfg : Config) : BookWF cfg Book.init :=
  ⟨List.nodup_nil, by simp [Book.init], by simp [Book.init], by simp [Book.init]⟩

theorem bookWF_clear (cfg : Config) (b : Book) : BookWF cfg b.clear :=
  ⟨List.nodup_nil, by simp [Book.clear], by simp [Book.clear], by simp [Book.clear]⟩

/-! ### `touch` -/

theorem touch_learned_map_code (b : Book) (c : Nat) :
    (b.touch c).learned.map Entry.code = b.learned.map Entry.code := by
  simp only [Book.touch, List.map_map]
  apply List.map_congr_left
  intro e _
  by_cases h : e.code = c <;> simp [h]

theorem touch_length (b : Book) (c : Nat) :
    (b.touch c).learned.length = b.learned.length := by
  simp [Book.touch]

theorem bookWF_touch {cfg : Config} {b : Book} (hb : BookWF cfg b) (c : Nat) :
    BookWF cfg (b.touch c) := by
  refine ⟨?_, ?_, ?_, ?_⟩
  · rw [touch_learned_map_code]; exact hb.nodup
  · intro e he
    simp only [Book.touch, List.mem_map] at he
    obtain ⟨e0, he0, rfl⟩ := he
    have := hb.lb e0 he0
    by_cases h : e0.code = c <;> simp [h] <;> omega
  · intro e he
    rw [touch_length]
    simp only [Book.touch, List.mem_map] at he
    obtain ⟨e0, he0, rfl⟩ := he
    have := hb.ub e0 he0
    by_cases h : e0.code = c <;> simp [h] <;> omega
  · rw [touch_length]; exact hb.lenle

/-! ### Victim selection and the next slot -/

theorem foldl_betterVictim_mem (key : Entry → Nat) :
    ∀ (l : List Entry) (a : Entry), l.foldl (Book.betterVictim key) a ∈ a :: l := by
  intro l
  induction l with
  | nil => intro a; simp
  | cons x xs ih =>
    intro a
    simp only [List.foldl_cons]
    have h := ih (Book.betterVictim key a x)
    have hb : Book.betterVictim key a x = x ∨ Book.betterVictim key a x = a := by
      unfold Book.betterVictim
      split <;> simp
    rcases List.mem_cons.mp h with h' | h'
    · rw [h']
      rcases hb with hx | ha
      · rw [hx]; simp
      · rw [ha]; simp
    · simp [h']

theorem victim?_mem {key : Entry → Nat} {l : List Entry} {e : Entry}
    (h : Book.victim? key l = some e) : e ∈ l := by
  cases l with
  | nil => simp [Book.victim?] at h
  | cons a as =>
    simp only [Book.victim?, Option.some.injEq] at h
    have := foldl_betterVictim_mem key as a
    rw [h] at this
    exact this

theorem victimCode?_mem {cfg : Config} {b : Book} {v : Nat}
    (h : Book.victimCode? cfg b = some v) : ∃ e ∈ b.learned, e.code = v := by
  unfold Book.victimCode? at h
  split at h <;> first
    | (simp only [Option.map_eq_some'] at h
       obtain ⟨e, he, rfl⟩ := h
       exact ⟨e, victim?_mem he, rfl⟩)
    | exact absurd h (by simp)

theorem nextSlot?_cases {cfg : Config} {b : Book} {v : Nat}
    (h : Book.nextSlot? cfg b = some v) :
    (b.learned.length < cfg.maxLearned ∧ v = cfg.firstLearned + b.learned.length) ∨
    (¬ b.learned.length < cfg.maxLearned ∧ ∃ e ∈ b.learned, e.code = v) := by
  unfold Book.nextSlot? at h
  split at h
  · left
    exact ⟨by assumption, by simpa using h.symm⟩
  · right
    exact ⟨by assumption, victimCode?_mem h⟩

theorem nextSlot?_ge {cfg : Config} {b : Book} {v : Nat} (hb : BookWF cfg b)
    (h : Book.nextSlot? cfg b = some v) : cfg.firstLearned ≤ v := by
  rcases nextSlot?_cases h with ⟨_, rfl⟩ | ⟨_, e, he, rfl⟩
  · omega
  · exact hb.lb e he

/-! ### `insertSeq` -/

theorem insertSeq_of_slot {cfg : Config} {b : Book} {v : Nat} (s : List Nat)
    (h : Book.nextSlot? cfg b = some v) :
    Book.insertSeq cfg b s =
      ({ b with learned := (b.learned.filter (fun e => e.code ≠ v)) ++
          [{ code := v, seq := s, lastUsed := b.tick, useCount := 0 }] }, .inserted) := by
  unfold Book.insertSeq
  rw [h]

theorem insertSeq_didReset {cfg : Config} {b : Book} {s : List Nat} {b' : Book}
    (h : Book.insertSeq cfg b s = (b', .didReset)) :
    cfg.policy = .reset ∧ Book.nextSlot? cfg b = none ∧ b' = b.clear := by
  unfold Book.insertSeq at h
  split at h
  · simp at h
  · rename_i hns
    split at h
    · rename_i hp
      exact ⟨hp, hns, (Prod.mk.injEq _ _ _ _ ▸ h).1.symm⟩
    · simp at h

theorem insertSeq_of_none_reset {cfg : Config} {b : Book}
    (h : Book.nextSlot? cfg b = none) (hp : cfg.policy = .reset) (s : List Nat) :
    Book.insertSeq cfg b s = (b.clear, .didReset) := by
  unfold Book.insertSeq
  rw [h, hp]

theorem insertSeq_of_none_other {cfg : Config} {b : Book}
    (h : Book.nextSlot? cfg b = none) (hp : cfg.policy ≠ .reset) (s : List Nat) :
    Book.insertSeq cfg b s = (b, .frozen) := by
  unfold Book.insertSeq
  rw [h]
  cases hpol : cfg.policy <;> simp_all

theorem insertSeq_length_le (cfg : Config) (b : Book) (s : List Nat) :
    (Book.insertSeq cfg b s).1.learned.length ≤ b.learned.length + 1 := by
  rcases hns : Book.nextSlot? cfg b with _ | v
  · by_cases hp : cfg.policy = .reset
    · rw [insertSeq_of_none_reset hns hp]
      simp [Book.clear]
    · rw [insertSeq_of_none_other hns hp]
      dsimp only
      omega
  · rw [insertSeq_of_slot s hns]
    dsimp only
    simp only [List.length_append, List.length_cons, List.length_nil]
    have := List.length_filter_le (fun e : Entry => decide (e.code ≠ v)) b.learned
    omega

theorem filter_code_ne_length {l : List Entry} (hnd : (l.map Entry.code).Nodup)
    {v : Nat} (hv : ∃ e ∈ l, e.code = v) :
    (l.filter (fun e => e.code ≠ v)).length + 1 = l.length := by
  induction l with
  | nil => simp at hv
  | cons a as ih =>
    simp only [List.map_cons, List.nodup_cons] at hnd
    obtain ⟨ha, hnd'⟩ := hnd
    by_cases hav : a.code = v
    · have hfe : as.filter (fun e => e.code ≠ v) = as := by
        rw [List.filter_eq_self]
        intro e he
        simp only [ne_eq, decide_eq_true_eq]
        intro hev
        exact ha (List.mem_map.mpr ⟨e, he, by rw [hev, hav]⟩)
      have hfc : (a :: as).filter (fun e => e.code ≠ v)
          = as.filter (fun e => e.code ≠ v) := by
        simp [List.filter_cons, hav]
      rw [hfc, hfe, List.length_cons]
    · obtain ⟨e, he, hev⟩ := hv
      rcases List.mem_cons.mp he with rfl | he'
      · exact absurd hev hav
      · have hrec := ih hnd' ⟨e, he', hev⟩
        have hfc : (a :: as).filter (fun e => e.code ≠ v)
            = a :: as.filter (fun e => e.code ≠ v) := by
          simp [List.filter_cons, hav]
        rw [hfc, List.length_cons, List.length_cons]
        omega

theorem bookWF_insertSeq {cfg : Config} {b : Book} (hb : BookWF cfg b)
    (s : List Nat) : BookWF cfg (Book.insertSeq cfg b s).1 := by
  rcases hns : Book.nextSlot? cfg b with _ | v
  · by_cases hp : cfg.policy = .reset
    · rw [insertSeq_of_none_reset hns hp]
      exact bookWF_clear cfg b
    · rw [insertSeq_of_none_other hns hp]
      exact hb
  · rw [insertSeq_of_slot s hns]
    have hvge : cfg.firstLearned ≤ v := nextSlot?_ge hb hns
    rcases nextSlot?_cases hns with ⟨hlt, rfl⟩ | ⟨hge, e0, he0, hve⟩
    · -- fresh slot: no entry carries code v, the filter is the identity
      have hfe : b.learned.filter (fun e => e.code ≠ cfg.firstLearned + b.learned.length)
          = b.learned := by
        rw [List.filter_eq_self]
        intro e he
        have := hb.ub e he
        simp only [ne_eq, decide_eq_true_eq]
        omega
      refine ⟨?_, ?_, ?_, ?_⟩
      · dsimp only
        rw [hfe]
        simp only [List.map_append, List.map_cons, List.map_nil]
        rw [List.nodup_append]
        refine ⟨hb.nodup, List.nodup_singleton _, ?_⟩
        intro c hc hc'
        simp only [List.mem_singleton] at hc'
        subst hc'
        obtain ⟨e, he, hec⟩ := List.mem_map.mp hc
        have := hb.ub e he
        omega
      · intro e he
        dsimp only at he
        rw [hfe] at he
        rcases List.mem_append.mp he with h' | h'
        · exact hb.lb e h'
        · simp only [List.mem_singleton] at h'
          subst h'
          exact Nat.le_add_right _ _
      · intro e he
        dsimp only at he ⊢
        rw [hfe] at he ⊢
        simp only [List.length_append, List.length_cons, List.length_nil]
        rcases List.mem_append.mp he with h' | h'
        · have := hb.ub e h'
          omega
        · simp only [List.mem_singleton] at h'
          subst h'
          show cfg.firstLearned + b.learned.length < cfg.firstLearned + (b.learned.length + (0 + 1))
          omega
      · dsimp only
        rw [hfe]
        simp only [List.length_append, List.length_cons, List.length_nil]
        omega
    · -- eviction: the victim's code is reused, the length is unchanged
      have hlen : (b.learned.filter (fun e => e.code ≠ v)).length + 1 = b.learned.length :=
        filter_code_ne_length hb.nodup ⟨e0, he0, hve⟩
      refine ⟨?_, ?_, ?_, ?_⟩
      · dsimp only
        simp only [List.map_append, List.map_cons, List.map_nil]
        rw [List.nodup_append]
        refine ⟨?_, List.nodup_singleton _, ?_⟩
        · exact hb.nodup.sublist (List.Sublist.map Entry.code (List.filter_sublist _))
        · intro c hc hc'
          simp only [List.mem_singleton] at hc'
          subst hc'
          obtain ⟨e, he, hec⟩ := List.mem_map.mp hc
          have := (List.mem_filter.mp he).2
          simp only [ne_eq, decide_eq_true_eq] at this
          exact this hec
      · intro e he
        dsimp only at he
        rcases List.mem_append.mp he with h' | h'
        · exact hb.lb e (List.mem_filter.mp h').1
        · simp only [List.mem_singleton] at h'
          subst h'
          exact hvge
      · intro e he
        dsimp only at he ⊢
        simp only [List.length_append, List.length_cons, List.length_nil]
        rcases List.mem_append.mp he with h' | h'
        · have := hb.ub e (List.mem_filter.mp h').1
          omega
        · simp only [List.mem_singleton] at h'
          subst h'
          have := hb.ub e0 he0
          show v < cfg.firstLearned + ((b.learned.filter (fun e => e.code ≠ v)).length + (0 + 1))
          omega
      · dsimp only
        simp only [List.length_append, List.length_cons, List.length_nil]
        have := hb.lenle
        omega

/-! ### Lookup lemmas -/

theorem find?_filter_imp {α : Type} {p q : α → Bool} (h : ∀ a, p a = true → q a = true) :
    ∀ l : List α, (l.filter q).find? p = l.find? p := by
  intro l
  induction l with
  | nil => rfl
  | cons a as ih =>
    by_cases hq : q a
    · rw [List.filter_cons_of_pos hq]
      by_cases hp : p a
      · rw [List.find?_cons_of_pos _ hp, List.find?_cons_of_pos _ hp]
      · rw [List.find?_cons_of_neg _ hp, List.find?_cons_of_neg _ hp, ih]
    · rw [List.filter_cons_of_neg hq]
      have hp : ¬ p a = true := fun hpa => hq (h a hpa)
      rw [List.find?_cons_of_neg _ hp, ih]

/-- Inserting into a slot leaves lookups of every other code unchanged. -/
theorem seqOf?_insertSeq_ne {cfg : Config} {b : Book} {v c : Nat} (s : List Nat)
    (hns : Book.nextSlot? cfg b = some v) (hc : c ≠ v) :
    Book.seqOf? cfg (Book.insertSeq cfg b s).1 c = Book.seqOf? cfg b c := by
  rw [insertSeq_of_slot s hns]
  unfold Book.seqOf?
  by_cases hR : c < cfg.R
  · rw [if_pos hR, if_pos hR]
  · rw [if_neg hR, if_neg hR]
    dsimp only
    rw [List.find?_append]
    have h1 : (b.learned.filter (fun e => e.code ≠ v)).find? (fun e => e.code = c)
        = b.learned.find? (fun e => e.code = c) := by
      apply find?_filter_imp
      intro a ha
      simp only [decide_eq_true_eq] at ha
      simp [ha, hc]
    rw [h1]
    cases hf : b.learned.find? (fun e => e.code = c) with
    | some e => rfl
    | none =>
      have : (¬ v = c) := fun hvc => hc hvc.symm
      simp [this]

/-- A successful reverse lookup: `codeOf?` then `seqOf?` round-trips on a
well-formed book. -/
theorem seqOf?_of_find? {cfg : Config} {b : Book} (hb : BookWF cfg b)
    {s : List Nat} {c : Nat}
    (h : (b.learned.find? (fun e => e.seq = s)).map (·.code) = some c) :
    Book.seqOf? cfg b c = some s := by
  simp only [Option.map_eq_some'] at h
  obtain ⟨e, he, rfl⟩ := h
  have hmem := List.mem_of_find?_eq_some he
  have hseq : e.seq = s := by simpa using List.find?_some he
  have hge := hb.lb e hmem
  have hRlt := cfg.R_lt_firstLearned
  have hR : ¬ e.code < cfg.R := by omega
  unfold Book.seqOf?
  rw [if_neg hR]
  cases hfind : b.learned.find? (fun e' => e'.code = e.code) with
  | none =>
    rw [List.find?_eq_none] at hfind
    have := hfind e hmem
    simp at this
  | some e' =>
    have hce := List.find?_some hfind
    have hmem' := List.mem_of_find?_eq_some hfind
    simp only [decide_eq_true_eq] at hce
    have : e' = e := List.inj_on_of_nodup_map hb.nodup hmem' hmem hce
    subst this
    simp [hseq]

theorem seqOf?_of_codeOf? {cfg : Config} {b : Book} (hb : BookWF cfg b)
    {s : List Nat} {c : Nat} (h : Book.codeOf? cfg b s = some c) :
    Book.seqOf? cfg b c = some s := by
  rcases s with _ | ⟨x, t⟩
  · exact seqOf?_of_find? hb (by simpa [Book.codeOf?] using h)
  · rcases t with _ | ⟨y, t'⟩
    · simp only [Book.codeOf?] at h
      by_cases hR : x < cfg.R
      · rw [if_pos hR] at h
        injection h with h'
        subst h'
        unfold Book.seqOf?
        rw [if_pos hR]
      · rw [if_neg hR] at h
        cases h
    · exact seqOf?_of_find? hb (by simpa [Book.codeOf?] using h)

/-- Any code produced by `codeOf?` is a base code or a live learned code. -/
theorem codeOf?_bound {cfg : Config} {b : Book} (hb : BookWF cfg b)
    {s : List Nat} {c : Nat} (h : Book.codeOf? cfg b s = some c) :
    c < cfg.R ∨ (cfg.firstLearned ≤ c ∧ c < cfg.firstLearned + b.learned.length) := by
  have generic : ∀ {s' : List Nat},
      (b.learned.find? (fun e => e.seq = s')).map (·.code) = some c →
      c < cfg.R ∨ (cfg.firstLearned ≤ c ∧ c < cfg.firstLearned + b.learned.length) := by
    intro s' h'
    simp only [Option.map_eq_some'] at h'
    obtain ⟨e, he, rfl⟩ := h'
    have hmem := List.mem_of_find?_eq_some he
    exact Or.inr ⟨hb.lb e hmem, hb.ub e hmem⟩
  rcases s with _ | ⟨x, t⟩
  · exact generic (by simpa [Book.codeOf?] using h)
  · rcases t with _ | ⟨y, t'⟩
    · simp only [Book.codeOf?] at h
      by_cases hR : x < cfg.R
      · rw [if_pos hR] at h
        injection h with h'
        omega
      · rw [if_neg hR] at h
        cases h
    · exact generic (by simpa [Book.codeOf?] using h)

/-- A code equal to the pending slot can only have been produced, on the
book after the insert, by the just-inserted sequence. -/
theorem codeOf?_insert_slot {cfg : Config} {b : Book} {v : Nat} {s m : List Nat}
    (hb : BookWF cfg b) (hns : Book.nextSlot? cfg b = some v)
    (h : Book.codeOf? cfg (Book.insertSeq cfg b s).1 m = some v) : m = s := by
  have hvge := nextSlot?_ge hb hns
  have hRlt := cfg.R_lt_firstLearned
  have generic : ∀ {m' : List Nat},
      ((Book.insertSeq cfg b s).1.learned.find? (fun e => e.seq = m')).map (·.code)
        = some v → m' = s := by
    intro m' h'
    simp only [Option.map_eq_some'] at h'
    obtain ⟨e, he, hev⟩ := h'
    have hmem := List.mem_of_find?_eq_some he
    have hseq : e.seq = m' := by simpa using List.find?_some he
    rw [insertSeq_of_slot s hns] at hmem
    dsimp only at hmem
    rcases List.mem_append.mp hmem with h'' | h''
    · have := (List.mem_filter.mp h'').2
      simp only [ne_eq, decide_eq_true_eq] at this
      exact absurd hev this
    · simp only [List.mem_singleton] at h''
      subst h''
      exact hseq.symm
  rcases m with _ | ⟨x, t⟩
  · exact generic (by simpa [Book.codeOf?] using h)
  · rcases t with _ | ⟨y, t'⟩
    · simp only [Book.codeOf?] at h
      by_cases hR : x < cfg.R
      · rw [if_pos hR] at h
        injection h with h'
        omega
      · rw [if_neg hR] at h
        cases h
    · exact generic (by simpa [Book.codeOf?] using h)

/-! ### `longestMatch` lemmas -/

theorem longestMatch_join (cfg : Config) (b : Book) :
    ∀ (rest acc : List Nat),
      (longestMatch cfg b acc rest).1 ++ (longestMatch cfg b acc rest).2 = acc ++ rest := by
  intro rest
  induction rest with
  | nil => intro acc; simp [longestMatch]
  | cons x xs ih =>
    intro acc
    by_cases h : (Book.codeOf? cfg b (acc ++ [x])).isSome
    · simp only [longestMatch, if_pos h]
      rw [ih (acc ++ [x])]
      simp
    · simp only [longestMatch, if_neg h]

theorem longestMatch_isSome (cfg : Config) (b : Book) :
    ∀ (rest acc : List Nat), (Book.codeOf? cfg b acc).isSome →
      (Book.codeOf? cfg b (longestMatch cfg b acc rest).1).isSome := by
  intro rest
  induction rest with
  | nil => intro acc h; simpa [longestMatch] using h
  | cons x xs ih =>
    intro acc hacc
    by_cases h : (Book.codeOf? cfg b (acc ++ [x])).isSome
    · simp only [longestMatch, if_pos h]
      exact ih (acc ++ [x]) h
    · simpa [longestMatch, if_neg h] using hacc

theorem longestMatch_acc_pre (cfg : Config) (b : Book) :
    ∀ (rest acc : List Nat), ∃ t, (longestMatch cfg b acc rest).1 = acc ++ t := by
  intro rest
  induction rest with
  | nil => intro acc; exact ⟨[], by simp [longestMatch]⟩
  | cons x xs ih =>
    intro acc
    by_cases h : (Book.codeOf? cfg b (acc ++ [x])).isSome
    · obtain ⟨t, ht⟩ := ih (acc ++ [x])
      refine ⟨x :: t, ?_⟩
      simp only [longestMatch, if_pos h, ht]
      simp
    · exact ⟨[], by simp [longestMatch, if_neg h]⟩

theorem longestMatch_maximal (cfg : Config) (b : Book) :
    ∀ (rest acc : List Nat) (y : Nat) (ys : List Nat),
      (longestMatch cfg b acc rest).2 = y :: ys →
      Book.codeOf? cfg b ((longestMatch cfg b acc rest).1 ++ [y]) = none := by
  intro rest
  induction rest with
  | nil => intro acc y ys h; simp [longestMatch] at h
  | cons x xs ih =>
    intro acc y ys h
    by_cases hs : (Book.codeOf? cfg b (acc ++ [x])).isSome
    · simp only [longestMatch, if_pos hs] at h ⊢
      exact ih (acc ++ [x]) y ys h
    · simp only [longestMatch, if_neg hs] at h ⊢
      injection h with h1 h2
      subst h1
      exact Option.not_isSome_iff_eq_none.mp hs

theorem longestMatch_rest_len (cfg : Config) (b : Book) :
    ∀ (rest acc : List Nat),
      (longestMatch cfg b acc rest).2.length ≤ rest.length := by
  intro rest
  induction rest with
  | nil => intro acc; simp [longestMatch]
  | cons x xs ih =>
    intro acc
    by_cases h : (Book.codeOf? cfg b (acc ++ [x])).isSome
    · simp only [longestMatch, if_pos h]
      exact le_trans (ih (acc ++ [x])) (by simp)
    · simp [longestMatch, if_neg h]

/-! ### Width lemmas -/

theorem widthFor_pos (cfg : Config) (h1 : 1 ≤ cfg.minW) (h2 : cfg.minW ≤ cfg.maxW)
    (d : Nat) : 1 ≤ cfg.widthFor d := by
  unfold Config.widthFor
  exact le_min (le_trans h1 h2) (le_trans h1 (le_max_left _ _))

theorem width_bound {cfg : Config} {c d : Nat}
    (hc1 : c < cfg.firstLearned + d) (hc2 : c < 2 ^ cfg.maxW) :
    c < 2 ^ cfg.widthFor d := by
  unfold Config.widthFor
  rcases min_cases cfg.maxW (max cfg.minW (clog2 (cfg.firstLearned + d)))
    with ⟨heq, _⟩ | ⟨heq, _⟩ <;> rw [heq]
  · exact hc2
  · have h1 : cfg.firstLearned + d ≤ 2 ^ clog2 (cfg.firstLearned + d) :=
      le_pow_clog2 _
    have h2 : (2:Nat) ^ clog2 (cfg.firstLearned + d)
        ≤ 2 ^ max cfg.minW (clog2 (cfg.firstLearned + d)) :=
      Nat.pow_le_pow_right (by norm_num) (le_max_right _ _)
    omega

/-! ### Encoder totality -/

theorem encodeLoop_isSome (cfg : Config) :
    ∀ (fuel : Nat) (rest : List Nat) (b : Book) (d : Nat),
      (∀ i ∈ rest, i < cfg.R) → rest.length < fuel →
      ∃ toks, encodeLoop cfg fuel b d rest = some toks := by
  intro fuel
  induction fuel with
  | zero => intro rest b d _ h; omega
  | succ f ih =>
    intro rest b d hmem hlen
    cases rest with
    | nil => exact ⟨_, rfl⟩
    | cons x xs =>
      have hxR : x < cfg.R := hmem x (List.mem_cons_self x xs)
      have hx : Book.codeOf? cfg b [x] = some x := by simp [Book.codeOf?, hxR]
      rcases hlm : longestMatch cfg b [x] xs with ⟨m, rest'⟩
      have hjoin : m ++ rest' = x :: xs := by
        have := longestMatch_join cfg b xs [x]
        rw [hlm] at this
        simpa using this
      have hsome : (Book.codeOf? cfg b m).isSome := by
        have := longestMatch_isSome cfg b xs [x] (by simp [hx])
        rw [hlm] at this
        exact this
      rcases Option.isSome_iff_exists.mp hsome with ⟨c, hc⟩
      have hrlen : rest'.length ≤ xs.length := by
        have := longestMatch_rest_len cfg b xs [x]
        rw [hlm] at this
        exact this
      have hrmem : ∀ i ∈ rest', i < cfg.R := by
        intro i hi
        apply hmem
        rw [← hjoin]
        exact List.mem_append_right m hi
      simp only [List.length_cons] at hlen
      rcases rest' with _ | ⟨y, ys⟩
      · obtain ⟨toks', hts⟩ := ih [] (b.touch c) (d + 1) (by simp)
          (by simp only [List.length_nil]; omega)
        exact ⟨(c, cfg.widthFor d) :: toks',
          by simp only [encodeLoop, hlm, hc, hts]; rfl⟩
      · rcases hins : Book.insertSeq cfg (b.touch c) (m ++ [y]) with ⟨b2, ev⟩
        have hok : (y :: ys).length < f := by
          simp only [List.length_cons] at hrlen ⊢
          omega
        obtain ⟨toks', hts⟩ := ih (y :: ys) b2 (d + 1) hrmem hok
        obtain ⟨toks'', hts0⟩ := ih (y :: ys) b2 0 hrmem hok
        cases ev with
        | didReset =>
          exact ⟨(c, cfg.widthFor d) :: (cfg.resetCode, cfg.widthFor (d + 1)) :: toks'',
            by simp only [encodeLoop, hlm, hc, hins, hts0]; rfl⟩
        | inserted =>
          exact ⟨(c, cfg.widthFor d) :: toks',
            by simp only [encodeLoop, hlm, hc, hins, hts]; rfl⟩
        | frozen =>
          exact ⟨(c, cfg.widthFor d) :: toks',
            by simp only [encodeLoop, hlm, hc, hins, hts]; rfl⟩

/-! ### Decoder single-step lemmas

Each lemma peels one codeword off the stream, with the side conditions
(width bound, marker discrimination, resolution) supplied as hypotheses. -/

theorem decodeLoop_step_eof (cfg : Config) (fD : Nat) (bD : Book)
    (prev : Option (List Nat)) (d : Nat) (bits' : List Bool)
    (hcb : cfg.eofCode < 2 ^ cfg.widthFor d) :
    decodeLoop cfg (fD + 1) bD prev d (writeBits (cfg.widthFor d) cfg.eofCode ++ bits')
      = .ok [] := by
  simp only [decodeLoop]
  rw [readTok_writeBits hcb bits']
  show (if cfg.eofCode = cfg.eofCode then (Except.ok [] : Except ExpErr (List Nat))
    else _) = .ok []
  rw [if_pos rfl]

theorem decodeLoop_step_reset (cfg : Config) (fD : Nat) (bD : Book)
    (prev : Option (List Nat)) (d : Nat) (bits' : List Bool)
    (hp : cfg.policy = .reset)
    (hcb : cfg.resetCode < 2 ^ cfg.widthFor d) :
    decodeLoop cfg (fD + 1) bD prev d (writeBits (cfg.widthFor d) cfg.resetCode ++ bits')
      = decodeLoop cfg fD bD.clear none 0 bits' := by
  have hne : ¬ cfg.resetCode = cfg.eofCode := by
    unfold Config.resetCode Config.eofCode
    omega
  simp only [decodeLoop]
  rw [readTok_writeBits hcb bits']
  show (if cfg.resetCode = cfg.eofCode then (Except.ok [] : Except ExpErr (List Nat))
    else if cfg.policy = .reset ∧ cfg.resetCode = cfg.resetCode then
      decodeLoop cfg fD bD.clear none 0 bits'
    else _) = _
  rw [if_neg hne, if_pos ⟨hp, rfl⟩]

theorem decodeLoop_step_none (cfg : Config) (fD : Nat) (bD : Book)
    (d : Nat) (c : Nat) (bits' : List Bool) (cur : List Nat)
    (hcb : c < 2 ^ cfg.widthFor d)
    (hne1 : ¬ c = cfg.eofCode)
    (hne2 : ¬ (cfg.policy = .reset ∧ c = cfg.resetCode))
    (hcur : Book.seqOf? cfg bD c = some cur) :
    decodeLoop cfg (fD + 1) bD none d (writeBits (cfg.widthFor d) c ++ bits')
      = match decodeLoop cfg fD (bD.touch c) (some cur) (d + 1) bits' with
        | .ok out => .ok (cur ++ out)
        | .error e => .error e := by
  simp only [decodeLoop]
  rw [readTok_writeBits hcb bits']
  show (if c = cfg.eofCode then (Except.ok [] : Except ExpErr (List Nat))
    else if cfg.policy = .reset ∧ c = cfg.resetCode then
      decodeLoop cfg fD bD.clear none 0 bits'
    else
      match Book.seqOf? cfg bD c with
      | none => .error .corruptStream
      | some cur =>
        match decodeLoop cfg fD (bD.touch c) (some cur) (d + 1) bits' with
        | .ok out => .ok (cur ++ out)
        | .error e => .error e) = _
  rw [if_neg hne1, if_neg hne2, hcur]

theorem decodeLoop_step_some (cfg : Config) (fD : Nat) (bD : Book)
    (p : List Nat) (d : Nat) (c : Nat) (bits' : List Bool) (cur : List Nat)
    (hcb : c < 2 ^ cfg.widthFor d)
    (hne1 : ¬ c = cfg.eofCode)
    (hne2 : ¬ (cfg.policy = .reset ∧ c = cfg.resetCode))
    (hcur : (if Book.nextSlot? cfg bD = some c then some (p ++ [p.headD 0])
        else Book.seqOf? cfg bD c) = some cur) :
    decodeLoop cfg (fD + 1) bD (some p) d (writeBits (cfg.widthFor d) c ++ bits')
      = match decodeLoop cfg fD
            (((Book.insertSeq cfg bD (p ++ [cur.headD 0])).1).touch c)
            (some cur) (d + 1) bits' with
        | .ok out => .ok (cur ++ out)
        | .error e => .error e := by
  simp only [decodeLoop]
  rw [readTok_writeBits hcb bits']
  show (if c = cfg.eofCode then (Except.ok [] : Except ExpErr (List Nat))
    else if cfg.policy = .reset ∧ c = cfg.resetCode then
      decodeLoop cfg fD bD.clear none 0 bits'
    else
      match (if Book.nextSlot? cfg bD = some c then some (p ++ [p.headD 0])
          else Book.seqOf? cfg bD c) with
      | none => .error .corruptStream
      | some cur =>
        match decodeLoop cfg fD
            (((Book.insertSeq cfg bD (p ++ [cur.headD 0])).1).touch c)
            (some cur) (d + 1) bits' with
        | .ok out => .ok (cur ++ out)
        | .error e => .error e) = _
  rw [if_neg hne1, if_neg hne2, hcur]

/-! ### The simulation invariant and the main lockstep theorem -/

/-- Resolution of a data codeword on the decoder side when an insert is
pending: the codeword either names the slot the pending insert is about to
occupy (the self-referential case, resolved from `prev` alone) or an entry
untouched by that insert. -/
theorem resolve_pending {cfg : Config} {bD bE : Book} {p m : List Nat} {x : Nat}
    {t : List Nat} {c : Nat}
    (hWD : BookWF cfg bD) (hWE : BookWF cfg bE) (hpne : p ≠ [])
    (hbE : bE = (Book.insertSeq cfg bD (p ++ [x])).1) (hmxt : m = x :: t)
    (hc : Book.codeOf? cfg bE m = some c) :
    (if Book.nextSlot? cfg bD = some c then some (p ++ [p.headD 0])
      else Book.seqOf? cfg bD c) = some m := by
  rcases hns : Book.nextSlot? cfg bD with _ | v
  · rw [if_neg (by simp)]
    by_cases hp : cfg.policy = .reset
    · have hbe' : bE = bD.clear := by rw [hbE, insertSeq_of_none_reset hns hp]
      have hm := seqOf?_of_codeOf? hWE hc
      have hb := codeOf?_bound hWE hc
      have hcR : c < cfg.R := by
        rw [hbe'] at hb
        simp only [Book.clear, List.length_nil] at hb
        have := cfg.R_lt_firstLearned
        rcases hb with h | ⟨h1, h2⟩ <;> omega
      rw [hbe'] at hm
      unfold Book.seqOf? at hm ⊢
      rw [if_pos hcR] at hm ⊢
      exact hm
    · have hbe' : bE = bD := by rw [hbE, insertSeq_of_none_other hns hp]
      rw [← hbe']
      exact seqOf?_of_codeOf? hWE hc
  · by_cases hcv : c = v
    · subst hcv
      rw [if_pos rfl]
      have hmps : m = p ++ [x] :=
        codeOf?_insert_slot hWD hns (by rw [← hbE]; exact hc)
      rcases p with _ | ⟨p0, ps⟩
      · exact absurd rfl hpne
      · have hp0 : p0 = x := by
          rw [hmxt] at hmps
          have h2 : x :: t = p0 :: (ps ++ [x]) := by simpa using hmps
          injection h2 with h1 _
          exact h1.symm
        subst hp0
        rw [hmps]
        rfl
    · have hcond : (some v : Option Nat) ≠ some c := by
        intro h
        injection h with h'
        exact hcv h'.symm
      rw [if_neg hcond]
      rw [← seqOf?_insertSeq_ne (p ++ [x]) hns hcv, ← hbE]
      exact seqOf?_of_codeOf? hWE hc

/-- Relation between the encoder state and the decoder state at the top of
a step: the decoder's book lags the encoder's by exactly the pending insert
(`prev + next input symbol`), which the decoder performs while processing
the current codeword; after a reset, or at end of input (where the pending
insert is never materialized on either side), the books coincide. -/
def SimInv (cfg : Config) (bE bD : Book) (prev : Option (List Nat))
    (rest : List Nat) : Prop :=
  match prev, rest with
  | _, [] => True
  | none, _ => bE = bD
  | some p, x :: _ => p ≠ [] ∧ bE = (Book.insertSeq cfg bD (p ++ [x])).1

/-- The decoder, fed the encoder's output bits (followed by arbitrary
padding), reproduces exactly the encoder's remaining input and keeps its
codebook in lockstep. -/
theorem decode_simulation (cfg : Config)
    (hW1 : 1 ≤ cfg.minW) (hW2 : cfg.minW ≤ cfg.maxW)
    (hCap : cfg.firstLearned ≤ 2 ^ cfg.maxW) :
    ∀ (fuelE : Nat) (rest : List Nat) (bE bD : Book) (prev : Option (List Nat))
      (d : Nat) (toks : List Tok),
      encodeLoop cfg fuelE bE d rest = some toks →
      (∀ i ∈ rest, i < cfg.R) →
      BookWF cfg bD →
      SimInv cfg bE bD prev rest →
      bE.learned.length ≤ d →
      ∀ (tail : List Bool) (fuelD : Nat),
        (payloadBits toks).length + tail.length < fuelD →
        decodeLoop cfg fuelD bD prev d (payloadBits toks ++ tail) = .ok rest := by
  intro fuelE
  induction fuelE with
  | zero =>
    intro rest bE bD prev d toks henc
    simp [encodeLoop] at henc
  | succ f ih =>
    intro rest bE bD prev d toks henc hmem hWD hInv hlen tail fuelD hfD
    have hRfl := cfg.R_lt_firstLearned
    have hw1 := widthFor_pos cfg hW1 hW2 d
    cases rest with
    | nil =>
      -- encoder emits the EOF marker and stops
      simp only [encodeLoop] at henc
      injection henc with henc'
      subst henc'
      cases fuelD with
      | zero => omega
      | succ fD =>
        have heofb : cfg.eofCode < 2 ^ cfg.widthFor d := by
          apply width_bound
          · unfold Config.eofCode
            omega
          · unfold Config.eofCode
            omega
        rw [payloadBits_cons, payloadBits_nil, List.append_nil]
        exact decodeLoop_step_eof cfg fD bD prev d tail heofb
    | cons x xs =>
      -- encoder: longest match, emit, touch, insert
      have hxR : x < cfg.R := hmem x (List.mem_cons_self x xs)
      rcases hlm : longestMatch cfg bE [x] xs with ⟨m, rest'⟩
      have hjoin : m ++ rest' = x :: xs := by
        have := longestMatch_join cfg bE xs [x]
        rw [hlm] at this
        simpa using this
      have hmxt : ∃ t, m = x :: t := by
        obtain ⟨t, ht⟩ := longestMatch_acc_pre cfg bE xs [x]
        rw [hlm] at ht
        exact ⟨t, ht⟩
      obtain ⟨t, hmxt⟩ := hmxt
      have hmhead : m.headD 0 = x := by rw [hmxt]; rfl
      have hmne : m ≠ [] := by rw [hmxt]; simp
      -- well-formedness of the encoder book
      have hWE : BookWF cfg bE := by
        cases prev with
        | none =>
          have hbe : bE = bD := hInv
          rwa [hbe]
        | some p =>
          obtain ⟨hpne, hbE⟩ := (hInv : p ≠ [] ∧ _)
          rw [hbE]
          exact bookWF_insertSeq hWD _
      have hsome : (Book.codeOf? cfg bE m).isSome := by
        have := longestMatch_isSome cfg bE xs [x] (by simp [Book.codeOf?, hxR])
        rw [hlm] at this
        exact this
      rcases Option.isSome_iff_exists.mp hsome with ⟨c, hc⟩
      simp only [encodeLoop, hlm, hc] at henc
      -- codeword bound and marker discrimination
      have hcbound := codeOf?_bound hWE hc
      have hcap' : cfg.firstLearned + cfg.maxLearned = 2 ^ cfg.maxW := by
        unfold Config.maxLearned Config.capacity
        omega
      have hlenE := hWE.lenle
      have hcb : c < 2 ^ cfg.widthFor d := by
        apply width_bound
        · rcases hcbound with h | ⟨h1, h2⟩ <;> omega
        · rcases hcbound with h | ⟨h1, h2⟩ <;> omega
      have hne1 : ¬ c = cfg.eofCode := by
        unfold Config.eofCode
        rcases hcbound with h | ⟨h1, h2⟩ <;> omega
      have hne2 : ¬ (cfg.policy = .reset ∧ c = cfg.resetCode) := by
        rintro ⟨hp, rfl⟩
        have := cfg.resetCode_lt_firstLearned hp
        unfold Config.resetCode at *
        rcases hcbound with h | ⟨h1, h2⟩ <;> omega
      -- branch on the remaining input after the match
      rcases rest' with _ | ⟨y, ys⟩
      · -- final data codeword: the encoder emits it and then EOF
        rcases hrec : encodeLoop cfg f (bE.touch c) (d + 1) [] with _ | toks'
        · simp [hrec] at henc
        simp only [hrec, Option.map_some'] at henc
        injection henc with henc'
        subst henc'
        cases fuelD with
        | zero => omega
        | succ fD =>
          rw [payloadBits_cons, List.append_assoc]
          simp only [List.length_append, writeBits_length, payloadBits_cons,
            List.length_cons] at hfD
          have hih := ih [] (bE.touch c) (bE.touch c) (some m) (d + 1) toks' hrec
            (by simp) (bookWF_touch hWE c) trivial
            (by rw [touch_length]; omega)
            tail fD (by omega)
          -- resolve, insert (a no-op target: the books already agree), touch
          cases prev with
          | none =>
            have hbe : bE = bD := hInv
            subst hbe
            have hcur : Book.seqOf? cfg bE c = some m := seqOf?_of_codeOf? hWE hc
            rw [decodeLoop_step_none cfg fD bE d c _ m hcb hne1 hne2 hcur, hih]
            have : m ++ ([] : List Nat) = x :: xs := by simpa using hjoin
            exact congrArg Except.ok this
          | some p =>
            obtain ⟨hpne, hbE⟩ := (hInv : p ≠ [] ∧ _)
            have hcur : (if Book.nextSlot? cfg bD = some c then some (p ++ [p.headD 0])
                else Book.seqOf? cfg bD c) = some m :=
                resolve_pending hWD hWE hpne hbE hmxt hc
            rw [decodeLoop_step_some cfg fD bD p d c _ m hcb hne1 hne2 hcur]
            rw [hmhead, ← hbE, hih]
            have : m ++ ([] : List Nat) = x :: xs := by simpa using hjoin
            exact congrArg Except.ok this
      · -- a further symbol follows: the encoder inserts (or resets)
        rcases hins : Book.insertSeq cfg (bE.touch c) (m ++ [y]) with ⟨b2, ev⟩
        simp only [hins] at henc
        have hrmemy : ∀ i ∈ y :: ys, i < cfg.R := by
          intro i hi
          apply hmem
          rw [← hjoin]
          exact List.mem_append_right m hi
        have hb2len : b2.learned.length ≤ d + 1 := by
          have h1 := insertSeq_length_le cfg (bE.touch c) (m ++ [y])
          rw [hins] at h1
          simp only at h1
          rw [touch_length] at h1
          omega
        cases ev with
        | didReset =>
          obtain ⟨hp, hns0, hb2⟩ := insertSeq_didReset hins
          rcases hrec : encodeLoop cfg f b2 0 (y :: ys) with _ | toks''
          · simp [hrec] at henc
          simp only [hrec, Option.map_some'] at henc
          injection henc with henc'
          subst henc'
          cases fuelD with
          | zero => omega
          | succ fD =>
            rw [payloadBits_cons, List.append_assoc]
            have hw2 := widthFor_pos cfg hW1 hW2 (d + 1)
            simp only [payloadBits_cons, List.length_append, writeBits_length] at hfD
            cases fD with
            | zero => omega
            | succ fD' =>
              have hresb : cfg.resetCode < 2 ^ cfg.widthFor (d + 1) := by
                have := cfg.resetCode_lt_firstLearned hp
                apply width_bound <;> omega
              have hih := ih (y :: ys) b2 ((bE.touch c).clear) none 0 toks'' hrec
                hrmemy (bookWF_clear cfg _) (by rw [hb2]; rfl) (by rw [hb2]; simp [Book.clear])
                tail fD' (by omega)
              -- first the data codeword, then the RESET marker
              cases prev with
              | none =>
                have hbe : bE = bD := hInv
                subst hbe
                have hcur : Book.seqOf? cfg bE c = some m := seqOf?_of_codeOf? hWE hc
                rw [decodeLoop_step_none cfg (fD' + 1) bE d c _ m hcb hne1 hne2 hcur]
                rw [payloadBits_cons, List.append_assoc,
                  decodeLoop_step_reset cfg fD' (bE.touch c) (some m) (d + 1) _ hp hresb,
                  hih]
                exact congrArg Except.ok hjoin
              | some p =>
                obtain ⟨hpne, hbE⟩ := (hInv : p ≠ [] ∧ _)
                have hcur : (if Book.nextSlot? cfg bD = some c then some (p ++ [p.headD 0])
                    else Book.seqOf? cfg bD c) = some m :=
                    resolve_pending hWD hWE hpne hbE hmxt hc
                rw [decodeLoop_step_some cfg (fD' + 1) bD p d c _ m hcb hne1 hne2 hcur]
                rw [hmhead, ← hbE]
                rw [payloadBits_cons, List.append_assoc,
                  decodeLoop_step_reset cfg fD' (bE.touch c) (some m) (d + 1) _ hp hresb,
                  hih]
                exact congrArg Except.ok hjoin
        | inserted =>
          rcases hrec : encodeLoop cfg f b2 (d + 1) (y :: ys) with _ | toks'
          · simp [hrec] at henc
          simp only [hrec, Option.map_some'] at henc
          injection henc with henc'
          subst henc'
          cases fuelD with
          | zero => omega
          | succ fD =>
            rw [payloadBits_cons, List.append_assoc]
            simp only [payloadBits_cons, List.length_append, writeBits_length] at hfD
            have hSim2 : SimInv cfg b2 (bE.touch c) (some m) (y :: ys) :=
              ⟨hmne, by rw [hins]⟩
            have hih := ih (y :: ys) b2 (bE.touch c) (some m) (d + 1) toks' hrec
              hrmemy (bookWF_touch hWE c) hSim2 hb2len
              tail fD (by omega)
            cases prev with
            | none =>
              have hbe : bE = bD := hInv
              subst hbe
              have hcur : Book.seqOf? cfg bE c = some m := seqOf?_of_codeOf? hWE hc
              rw [decodeLoop_step_none cfg fD bE d c _ m hcb hne1 hne2 hcur, hih]
              exact congrArg Except.ok hjoin
            | some p =>
              obtain ⟨hpne, hbE⟩ := (hInv : p ≠ [] ∧ _)
              have hcur : (if Book.nextSlot? cfg bD = some c then some (p ++ [p.headD 0])
                  else Book.seqOf? cfg bD c) = some m :=
                  resolve_pending hWD hWE hpne hbE hmxt hc
              rw [decodeLoop_step_some cfg fD bD p d c _ m hcb hne1 hne2 hcur]
              rw [hmhead, ← hbE, hih]
              exact congrArg Except.ok hjoin
        | frozen =>
          have hb2e : b2 = bE.touch c := by
            rcases hns0 : Book.nextSlot? cfg (bE.touch c) with _ | v
            · by_cases hp' : cfg.policy = .reset
              · rw [insertSeq_of_none_reset hns0 hp'] at hins
                cases hins
              · rw [insertSeq_of_none_other hns0 hp'] at hins
                injection hins with h1 _
                exact h1.symm
            · rw [insertSeq_of_slot _ hns0] at hins
              cases hins
          rcases hrec : encodeLoop cfg f b2 (d + 1) (y :: ys) with _ | toks'
          · simp [hrec] at henc
          simp only [hrec, Option.map_some'] at henc
          injection henc with henc'
          subst henc'
          cases fuelD with
          | zero => omega
          | succ fD =>
            rw [payloadBits_cons, List.append_assoc]
            simp only [payloadBits_cons, List.length_append, writeBits_length] at hfD
            have hSim2 : SimInv cfg b2 (bE.touch c) (some m) (y :: ys) :=
              ⟨hmne, by rw [hins]⟩
            have hih := ih (y :: ys) b2 (bE.touch c) (some m) (d + 1) toks' hrec
              hrmemy (bookWF_touch hWE c) hSim2 hb2len
              tail fD (by omega)
            cases prev with
            | none =>
              have hbe : bE = bD := hInv
              subst hbe
              have hcur : Book.seqOf? cfg bE c = some m := seqOf?_of_codeOf? hWE hc
              rw [decodeLoop_step_none cfg fD bE d c _ m hcb hne1 hne2 hcur, hih]
              exact congrArg Except.ok hjoin
            | some p =>
              obtain ⟨hpne, hbE⟩ := (hInv : p ≠ [] ∧ _)
              have hcur : (if Book.nextSlot? cfg bD = some c then some (p ++ [p.headD 0])
                  else Book.seqOf? cfg bD c) = some m :=
                  resolve_pending hWD hWE hpne hbE hmxt hc
              rw [decodeLoop_step_some cfg fD bD p d c _ m hcb hne1 hne2 hcur]
              rw [hmhead, ← hbE, hih]
              exact congrArg Except.ok hjoin

/-! ### The round-trip theorem -/

/-- Spec section 8, round-trip: for every configuration whose widths are
sensible and whose capacity accommodates the base symbols and markers, and
for every symbol sequence drawn from the declared alphabet, compression
succeeds and expansion reproduces the input exactly — under every policy
(the policy is a field of `cfg`). -/
theorem lzw_roundtrip (cfg : Config)
    (hW1 : 1 ≤ cfg.minW) (hW2 : cfg.minW ≤ cfg.maxW)
    (hCap : cfg.firstLearned ≤ 2 ^ cfg.maxW)
    (s : List Char) (hs : ∀ ch ∈ s, ch ∈ cfg.alphabet) :
    ∃ st : Stream, lzwCompress cfg s = .ok st ∧ lzwExpand st = .ok s := by
  obtain ⟨codes, hok, hmap, hlt⟩ := toCodes_ok hs
  obtain ⟨toks, htoks⟩ :=
    encodeLoop_isSome cfg (codes.length + 1) codes Book.init 0 hlt (by omega)
  refine ⟨⟨cfg.alphabet, cfg.minW, cfg.maxW, cfg.policy, pad8 (payloadBits toks)⟩, ?_, ?_⟩
  · simp only [lzwCompress, hok, htoks]
  · have hcfg : (⟨cfg.alphabet, cfg.minW, cfg.maxW, cfg.policy⟩ : Config) = cfg := rfl
    unfold lzwExpand
    dsimp only
    rw [hcfg]
    unfold pad8
    have hdec := decode_simulation cfg hW1 hW2 hCap (codes.length + 1) codes
      Book.init Book.init none 0 toks htoks hlt (bookWF_init cfg)
      (by cases codes with | nil => trivial | cons a l => rfl)
      (by simp [Book.init])
      (List.replicate ((8 - (payloadBits toks).length % 8) % 8) false)
      ((payloadBits toks ++
        List.replicate ((8 - (payloadBits toks).length % 8) % 8) false).length + 1)
      (by simp only [List.length_append]; omega)
    rw [hdec]
    exact congrArg Except.ok hmap

/-! ### Harness-check and CLI models over the codec -/

/-- The success verdict shared by `compress_expand_test`
(comprehensive_test.py lines 154-193) and `run_test` (test_lru.py lines
81-119) over the modelled codec: the compression step must succeed, then
the expansion step must succeed, and then the decompressed output must be
character-for-character equal to the input. -/
def compressExpandCheck (cfg : Config) (s : List Char) : Bool :=
  match lzwCompress cfg s with
  | .error _ => false
  | .ok st =>
    match lzwExpand st with
    | .error _ => false
    | .ok out => out == s

/-- Compressed payload size in bits (0 when compression fails). -/
def compressedBitLength (cfg : Config) (s : List Char) : Nat :=
  match lzwCompress cfg s with
  | .ok st => st.bits.length
  | .error _ => 0

/-- Modelled from the spec: the diagnostic on the error channel for a
fatal compression error (`SymbolNotInAlphabet` must identify the offending
symbol; the harness greps stderr for "not in the alphabet"). -/
def renderCompErr : CompErr → String
  | .symbolNotInAlphabet ch => "Error: character " ++ String.mk [ch] ++ " is not in the alphabet"
  | .internal => "Error: internal failure"

/-- Modelled from the spec: process-level outcome of a compress run — exit
code and stderr (success gives exit 0, any error exit 1 and a diagnostic,
spec section 6). -/
def compressExit (cfg : Config) (s : List Char) : Nat × String :=
  match lzwCompress cfg s with
  | .ok _ => (0, "")
  | .error e => (1, renderCompErr e)

/-! ## Command-line front end, modelled from the spec

Modelled from the spec: LZWTool's argument parsing is an external
collaborator absent from the snapshot; spec sections 6 and 7 fix its
contract — `ArgumentError` (missing/invalid mode, unknown flag,
minW > maxW) detected before any stream processing, `AlphabetLoadError`
(missing alphabet file) before compression starts, nonzero exit with a
diagnostic on the error channel, and the harness additionally requires the
unknown-flag diagnostic to contain "Unknown argument". -/

inductive ArgError
  | unknownArgument (flag : String)
  | missingMode
  | invalidMode (m : String)
  | missingWidth
  | badWidths (minW maxW : Nat)
  | invalidPolicy (p : String)
  | missingAlphabet
  | alphabetNotFound (path : String)
deriving DecidableEq, Repr

/-- Decimal digit parser over the character list (kernel-evaluable stand-in
for Python-style `int(...)` parsing of the width flags). -/
def parseNatGo : List Char → Nat → Option Nat
  | [], acc => some acc
  | ch :: cs, acc =>
    if '0' ≤ ch ∧ ch ≤ '9' then parseNatGo cs (acc * 10 + (ch.toNat - '0'.toNat))
    else none

def parseNat? (s : String) : Option Nat :=
  match s.toList with
  | [] => none
  | l => parseNatGo l 0

structure RawArgs where
  mode : Option String
  minW : Option Nat
  maxW : Option Nat
  policy : Option String
  alphabet : Option String
deriving DecidableEq, Repr

def emptyArgs : RawArgs := ⟨none, none, none, none, none⟩

/-- Scan the argument vector; any flag outside the documented set aborts
with `unknownArgument` (a dangling known flag counts as malformed too). -/
def scanArgs : List String → RawArgs → Except ArgError RawArgs
  | [], acc => .ok acc
  | "--mode" :: v :: rest, acc => scanArgs rest { acc with mode := some v }
  | "--minW" :: v :: rest, acc => scanArgs rest { acc with minW := parseNat? v }
  | "--maxW" :: v :: rest, acc => scanArgs rest { acc with maxW := parseNat? v }
  | "--policy" :: v :: rest, acc => scanArgs rest { acc with policy := some v }
  | "--alphabet" :: v :: rest, acc => scanArgs rest { acc with alphabet := some v }
  | flag :: _, _ => .error (.unknownArgument flag)

/-- Argument validation before any stream processing: mode present and
valid, widths coherent, policy in the documented set, alphabet named and
loadable (`fs` is the set of existing files). -/
def lzwToolRun (args : List String) (fs : List String) : Except ArgError Unit :=
  match scanArgs args emptyArgs with
  | .error e => .error e
  | .ok r =>
    match r.mode with
    | none => .error .missingMode
    | some "expand" => .ok ()
    | some "compress" =>
      match r.minW, r.maxW with
      | some mw, some xw =>
        if xw < mw then .error (.badWidths mw xw)
        else if (r.policy.getD "freeze") ∉ ["freeze", "reset", "lru", "lfu"] then
          .error (.invalidPolicy (r.policy.getD "freeze"))
        else
          match r.alphabet with
          | none => .error .missingAlphabet
          | some path => if path ∈ fs then .ok () else .error (.alphabetNotFound path)
      | _, _ => .error .missingWidth
    | some m => .error (.invalidMode m)

def renderArgError : ArgError → String
  | .unknownArgument flag => "Unknown argument: " ++ flag
  | .missingMode => "Error: --mode is required"
  | .invalidMode m => "Error: invalid mode " ++ m
  | .missingWidth => "Error: --minW and --maxW are required"
  | .badWidths _ _ => "Error: minW must not exceed maxW"
  | .invalidPolicy p => "Error: invalid policy " ++ p
  | .missingAlphabet => "Error: --alphabet is required for compression"
  | .alphabetNotFound path => "Error: cannot open alphabet file " ++ path

/-- Exit code and error-channel output of an invocation. -/
def runCLI (args : List String) (fs : List String) : Nat × String :=
  match lzwToolRun args fs with
  | .ok _ => (0, "")
  | .error e => (1, renderArgError e)

end LZWCodec

/-! ## Claim theorems -/

open LZWHarness LZWCodec

/-- The `{a, b}` / minW 3 / maxW 4 / freeze configuration the harness uses
for its concrete scenario. -/
def abFreezeCfg : Config := ⟨['a', 'b'], 3, 4, Policy.freeze⟩

/-- `"aabbaabbaabb" * 20`, the 240-character concrete input. -/
def c4Input : List Char := (List.replicate 20 "aabbaabbaabb".toList).flatten

/-- The files the edge-case invocations of comprehensive_test.py rely on. -/
def harnessFiles : List String := ["alphabets/ab.txt"]

/-- C1: for every policy (a field of the configuration) and every sequence
drawn from the declared alphabet, the round-trip check passes; and, fully
generally, the verdict of `compress_expand_test`/`run_test` is success
exactly when the file produced by `expand (compress s)` is
character-for-character equal to `s`. -/
theorem claim1_roundtrip_check (cfg : Config) (s : List Char)
    (hW1 : 1 ≤ cfg.minW) (hW2 : cfg.minW ≤ cfg.maxW)
    (hCap : cfg.firstLearned ≤ 2 ^ cfg.maxW)
    (hs : ∀ ch ∈ s, ch ∈ cfg.alphabet) :
    compressExpandCheck cfg s = true ∧
    (∀ (cfg' : Config) (s' : List Char),
      compressExpandCheck cfg' s' = true ↔
        ∃ st, lzwCompress cfg' s' = .ok st ∧ lzwExpand st = .ok s') := by
  have hgen : ∀ (cfg' : Config) (s' : List Char),
      compressExpandCheck cfg' s' = true ↔
        ∃ st, lzwCompress cfg' s' = .ok st ∧ lzwExpand st = .ok s' := by
    intro cfg' s'
    unfold compressExpandCheck
    constructor
    · intro h
      cases h1 : lzwCompress cfg' s' with
      | error e => simp [h1] at h
      | ok st =>
        cases h2 : lzwExpand st with
        | error e => simp [h1, h2] at h
        | ok out =>
          simp [h1, h2] at h
          exact ⟨st, rfl, by rw [h2, h]⟩
    · rintro ⟨st, h1, h2⟩
      simp [h1, h2]
  constructor
  · obtain ⟨st, h1, h2⟩ := lzw_roundtrip cfg hW1 hW2 hCap s hs
    exact (hgen cfg s).mpr ⟨st, h1, h2⟩
  · exact hgen

/-- C1 witness: the check passes on a concrete configuration and input. -/
theorem claim1_witness :
    compressExpandCheck ⟨['a', 'b'], 3, 4, Policy.freeze⟩ ['a', 'b'] = true :=
  (claim1_roundtrip_check ⟨['a', 'b'], 3, 4, Policy.freeze⟩ ['a', 'b']
    (by norm_num) (by norm_num) (by decide) (by decide)).1

/-- C2: under every policy, compressing the empty sequence succeeds, the
stream's payload holds nothing but the EOF marker codeword (the
"header-only" stream), and expanding it yields the empty output. -/
theorem claim2_empty_roundtrip (cfg : Config)
    (hW1 : 1 ≤ cfg.minW) (hW2 : cfg.minW ≤ cfg.maxW)
    (hCap : cfg.firstLearned ≤ 2 ^ cfg.maxW) :
    lzwCompress cfg [] =
      .ok ⟨cfg.alphabet, cfg.minW, cfg.maxW, cfg.policy,
        pad8 (payloadBits [(cfg.eofCode, cfg.widthFor 0)])⟩ ∧
    lzwExpand ⟨cfg.alphabet, cfg.minW, cfg.maxW, cfg.policy,
      pad8 (payloadBits [(cfg.eofCode, cfg.widthFor 0)])⟩ = .ok [] := by
  have hcomp : lzwCompress cfg [] =
      .ok ⟨cfg.alphabet, cfg.minW, cfg.maxW, cfg.policy,
        pad8 (payloadBits [(cfg.eofCode, cfg.widthFor 0)])⟩ := rfl
  refine ⟨hcomp, ?_⟩
  obtain ⟨st, h1, h2⟩ := lzw_roundtrip cfg hW1 hW2 hCap [] (by simp)
  rw [hcomp] at h1
  injection h1 with h1'
  rw [h1']
  exact h2

/-- C2 witness: instantiated at the `reset` policy (the one with both
markers reserved). -/
theorem claim2_witness :
    lzwCompress ⟨['a', 'b'], 3, 4, Policy.reset⟩ [] =
      .ok ⟨['a', 'b'], 3, 4, Policy.reset,
        pad8 (payloadBits [((⟨['a', 'b'], 3, 4, Policy.reset⟩ : Config).eofCode,
          (⟨['a', 'b'], 3, 4, Policy.reset⟩ : Config).widthFor 0)])⟩ ∧
    lzwExpand ⟨['a', 'b'], 3, 4, Policy.reset,
      pad8 (payloadBits [((⟨['a', 'b'], 3, 4, Policy.reset⟩ : Config).eofCode,
        (⟨['a', 'b'], 3, 4, Policy.reset⟩ : Config).widthFor 0)])⟩ = .ok [] :=
  claim2_empty_roundtrip ⟨['a', 'b'], 3, 4, Policy.reset⟩
    (by norm_num) (by norm_num) (by decide)

/-- C3: compressing "abc" against the alphabet `{a, b}` aborts with
`SymbolNotInAlphabet`, the process exit is nonzero with no stream output,
and the diagnostic identifies the offending symbol `c`. -/
theorem claim3_alphabet_rejection :
    lzwCompress ⟨['a', 'b'], 3, 4, Policy.freeze⟩ "abc".toList
      = .error (.symbolNotInAlphabet 'c') ∧
    compressExit ⟨['a', 'b'], 3, 4, Policy.freeze⟩ "abc".toList
      = (1, "Error: character c is not in the alphabet") ∧
    (∃ pre post : String,
      (compressExit ⟨['a', 'b'], 3, 4, Policy.freeze⟩ "abc".toList).2
        = pre ++ String.mk ['c'] ++ post) :=
  ⟨rfl, rfl, "Error: character ", " is not in the alphabet", by decide⟩

set_option maxRecDepth 400000 in
/-- C4: the concrete scenario — alphabet `{a, b}`, minW 3, maxW 4, freeze,
input `"aabbaabbaabb"` repeated 20 times: the input is exactly 240
characters, the round trip reproduces it, and the compressed payload is
strictly smaller than 240 raw symbol-codewords of minW bits each. -/
theorem claim4_concrete_case :
    c4Input.length = 240 ∧
    compressExpandCheck abFreezeCfg c4Input = true ∧
    compressedBitLength abFreezeCfg c4Input < 240 * 3 := by
  refine ⟨by decide, ?_, by decide⟩
  obtain ⟨st, h1, h2⟩ := lzw_roundtrip abFreezeCfg (by decide) (by decide)
    (by decide) c4Input (by decide)
  unfold compressExpandCheck
  simp [h1, h2]

/-- C5 counterexample: when the lru and lfu ratios coincide, the harness's
divergence check merely logs a warning — it does not establish divergence
or fail the suite. -/
theorem claim5_counterexample :
    lruLfuCheck (some 3) (some 3) = .warned ∧
    lruLfuCheck (some 3) (some 3) ≠ .passed ∧
    suiteReturnAfterCheck (lruLfuCheck (some 3) (some 3)) = true :=
  ⟨by decide, by decide, rfl⟩

/-- C5 (amended): on truthy lru/lfu ratios the check reports pass exactly
when they differ and merely warns when they coincide, and
`test_alphabet_suite` returns success either way; the harness never
establishes the divergence property. -/
theorem claim5_check_behavior (r1 r2 : ℚ) (h1 : r1 ≠ 0) (h2 : r2 ≠ 0) :
    lruLfuCheck (some r1) (some r2)
      = (if r1 = r2 then DivergenceOutcome.warned else .passed) ∧
    suiteReturnAfterCheck (lruLfuCheck (some r1) (some r2)) = true := by
  constructor
  · unfold lruLfuCheck pyTruthy
    rw [if_pos (by simp [h1, h2])]
    by_cases hr : r1 = r2
    · rw [if_pos (by rw [hr]), if_pos hr]
    · rw [if_neg (by simp [hr]), if_neg hr]
  · rfl

/-- C5 witness. -/
theorem claim5_witness :
    (lruLfuCheck (some 3) (some 4)
      = if (3 : ℚ) = 4 then DivergenceOutcome.warned else .passed) ∧
    suiteReturnAfterCheck (lruLfuCheck (some 3) (some 4)) = true :=
  claim5_check_behavior 3 4 (by norm_num) (by norm_num)

/-- C6: each malformed invocation exercised by the harness exits nonzero
with a diagnostic on the error channel before any stream processing, and
the unknown-argument diagnostic contains "Unknown argument". -/
theorem claim6_malformed_invocations :
    ((runCLI ["--alphabet", "alphabets/ab.txt"] harnessFiles).1 ≠ 0 ∧
      (runCLI ["--alphabet", "alphabets/ab.txt"] harnessFiles).2 ≠ "") ∧
    ((runCLI ["--mode", "invalid"] harnessFiles).1 ≠ 0 ∧
      (runCLI ["--mode", "invalid"] harnessFiles).2 ≠ "") ∧
    ((runCLI ["--mode", "compress", "--minW", "3", "--maxW", "4"] harnessFiles).1 ≠ 0 ∧
      (runCLI ["--mode", "compress", "--minW", "3", "--maxW", "4"] harnessFiles).2 ≠ "") ∧
    ((runCLI ["--mode", "compress", "--alphabet", "nonexistent.txt",
        "--minW", "3", "--maxW", "4"] harnessFiles).1 ≠ 0 ∧
      (runCLI ["--mode", "compress", "--alphabet", "nonexistent.txt",
        "--minW", "3", "--maxW", "4"] harnessFiles).2 ≠ "") ∧
    ((runCLI ["--mode", "compress", "--alphabet", "alphabets/ab.txt",
        "--minW", "10", "--maxW", "5"] harnessFiles).1 ≠ 0 ∧
      (runCLI ["--mode", "compress", "--alphabet", "alphabets/ab.txt",
        "--minW", "10", "--maxW", "5"] harnessFiles).2 ≠ "") ∧
    ((runCLI ["--unknown-arg", "value"] harnessFiles).1 ≠ 0 ∧
      ∃ pre post : String, (runCLI ["--unknown-arg", "value"] harnessFiles).2
        = pre ++ "Unknown argument" ++ post) :=
  ⟨⟨by decide, by decide⟩, ⟨by decide, by decide⟩, ⟨by decide, by decide⟩,
    ⟨by decide, by decide⟩, ⟨by decide, by decide⟩,
    ⟨by decide, "", ": --unknown-arg", by decide⟩⟩

/-- C7 counterexample: at alphabet size 3 the harness picks minW 2, and
`2 ^ 2 = 4` cannot hold the 3 symbol codes plus the 2 reserved markers. -/
theorem claim7_counterexample :
    pick_bitwidths 3 = (2, 4) ∧ ¬ (3 + 2 ≤ 2 ^ (pick_bitwidths 3).1) :=
  ⟨by decide, by decide⟩

/-- C7 (amended): for every alphabet size n ≥ 1 the selected widths satisfy
2 ≤ minW ≤ maxW and `2 ^ minW ≥ n` (room for the n base symbol codes; the
claimed `≥ n + 2` fails, e.g. at n = 3). -/
theorem claim7_width_selection (n : Nat) (h : 1 ≤ n) :
    2 ≤ (pick_bitwidths n).1 ∧ (pick_bitwidths n).1 ≤ (pick_bitwidths n).2 ∧
    n ≤ 2 ^ (pick_bitwidths n).1 := by
  unfold pick_bitwidths
  dsimp only
  refine ⟨le_max_left _ _, Nat.le_add_right _ 2, ?_⟩
  have h1 := bitLength_lt (n - 1)
  have h2 : (2 : Nat) ^ bitLength (n - 1) ≤ 2 ^ max 2 (bitLength (n - 1)) :=
    Nat.pow_le_pow_right (by norm_num) (le_max_right _ _)
  omega

/-- C7 witness. -/
theorem claim7_witness :
    2 ≤ (pick_bitwidths 3).1 ∧ (pick_bitwidths 3).1 ≤ (pick_bitwidths 3).2 ∧
    3 ≤ 2 ^ (pick_bitwidths 3).1 :=
  claim7_width_selection 3 (by norm_num)

/-- No file among the three temporary names survives the shared
`finally:` cleanup block. -/
theorem not_mem_cleanupFinally (inF cF dF : String) (fs : FS) :
    inF ∉ cleanupFinally inF cF dF fs ∧ cF ∉ cleanupFinally inF cF dF fs ∧
    dF ∉ cleanupFinally inF cF dF fs := by
  unfold cleanupFinally FS.removeIfPresent
  refine ⟨?_, ?_, ?_⟩ <;> intro h <;> simp [List.mem_filter] at h

/-- C8: whatever the compile/compress/expand outcomes and the comparison
verdict, after `compress_expand_test`, `run_test` or `test_policy` returns,
none of its three temporary files (input, compressed, decompressed) still
exists. -/
theorem claim8_temp_cleanup :
    (∀ (inF cF dF : String) (cOk eOk mOk : Bool) (fs : FS),
      inF ∉ compressExpandTestFS inF cF dF cOk eOk mOk fs ∧
      cF ∉ compressExpandTestFS inF cF dF cOk eOk mOk fs ∧
      dF ∉ compressExpandTestFS inF cF dF cOk eOk mOk fs) ∧
    (∀ (name : String) (k cOk eOk mOk : Bool) (fs : FS),
      ("test_input_" ++ name ++ ".txt") ∉ runTestFS name k cOk eOk mOk fs ∧
      ("test_compressed_" ++ name ++ ".bin") ∉ runTestFS name k cOk eOk mOk fs ∧
      ("test_decompressed_" ++ name ++ ".txt") ∉ runTestFS name k cOk eOk mOk fs) ∧
    (∀ (pol : String) (k cOk eOk mOk : Bool) (fs : FS),
      ("test_" ++ pol ++ "_input.txt") ∉ testPolicyFS pol k cOk eOk mOk fs ∧
      ("test_" ++ pol ++ "_compressed.bin") ∉ testPolicyFS pol k cOk eOk mOk fs ∧
      ("test_" ++ pol ++ "_decompressed.txt") ∉ testPolicyFS pol k cOk eOk mOk fs) := by
  refine ⟨?_, ?_, ?_⟩
  · intro inF cF dF cOk eOk mOk fs
    cases cOk <;> cases eOk <;>
      exact ⟨(not_mem_cleanupFinally _ _ _ _).1, (not_mem_cleanupFinally _ _ _ _).2.1,
        (not_mem_cleanupFinally _ _ _ _).2.2⟩
  · intro name k cOk eOk mOk fs
    cases k <;> cases cOk <;> cases eOk <;>
      exact ⟨(not_mem_cleanupFinally _ _ _ _).1, (not_mem_cleanupFinally _ _ _ _).2.1,
        (not_mem_cleanupFinally _ _ _ _).2.2⟩
  · intro pol k cOk eOk mOk fs
    cases k <;> cases cOk <;> cases eOk <;>
      exact ⟨(not_mem_cleanupFinally _ _ _ _).1, (not_mem_cleanupFinally _ _ _ _).2.1,
        (not_mem_cleanupFinally _ _ _ _).2.2⟩

/-- C9: the compression-ratio computation of each harness function is
total — no division by zero for any input — and on empty input the
reported ratio is 0. -/
theorem claim9_ratio_totality :
    (∀ cs os : Nat, (ratioComprehensive cs os).isSome ∧
      (ratioTestLru cs os).isSome ∧ (ratioAllPolicies cs os).isSome) ∧
    (∀ cs : Nat, ratioComprehensive cs 0 = some 0 ∧
      ratioTestLru cs 0 = some 0 ∧ ratioAllPolicies cs 0 = some 0) := by
  constructor
  · intro cs os
    by_cases h : 0 < os
    · have hne : (max (os : ℚ) 1) ≠ 0 :=
        ne_of_gt (lt_of_lt_of_le zero_lt_one (le_max_right _ _))
      have hne2 : ((os : Nat) : ℚ) ≠ 0 := by
        rw [Nat.cast_ne_zero]
        omega
      refine ⟨?_, ?_, ?_⟩ <;>
        simp [ratioComprehensive, ratioTestLru, ratioAllPolicies, pyDiv, h, hne, hne2]
    · refine ⟨?_, ?_, ?_⟩ <;>
        simp [ratioComprehensive, ratioTestLru, ratioAllPolicies, h]
  · intro cs
    exact ⟨rfl, rfl, rfl⟩

set_option maxRecDepth 100000 in
/-- C10: the random sequences of comprehensive_test.py and
verify_policies_differ.py are functions of the seeded state alone
(`random.seed(42)` runs before any generation), hence identical across
runs; test_lru.py seeds nothing, and two ambient generator states can
produce different sequences. -/
theorem claim10_rng_determinism :
    (∀ (chars : List Char) (g1 g2 : Rng),
      comprehensiveRandomSeqs chars g1 = comprehensiveRandomSeqs chars g2) ∧
    (∀ (chars : List Char) (g1 g2 : Rng) (n : Nat),
      verifyPoliciesRandomSeq chars g1 n = verifyPoliciesRandomSeq chars g2 n) ∧
    (∃ g1 g2 : Rng, testLruRandomSeqs g1 ≠ testLruRandomSeqs g2) :=
  ⟨fun _ _ _ => rfl, fun _ _ _ _ => rfl,
    ⟨fun _ => 0, fun _ => 1, by decide⟩⟩
